import Mathlib

/-!
Shallow embedding of the `rt` package (an RT "REST" protocol client).

Strings are embedded as `List Char` (`Str`); each Python helper used by the
sources (`str.splitlines`, `str.strip`, `textwrap.dedent`, `str.join`,
`str.split`) is modelled explicitly below, followed by the record parser
(`rt/data.py`), the serializer, the response-envelope parser
(`rt/response.py`) and a sequential model of the dispatch engine
(`rt/frontend.py`).
-/

namespace RT

/-- Strings are modelled as lists of characters. -/
abbrev Str := List Char

/-- Turn a Lean string literal into the `Str` representation. -/
def str (s : String) : Str := s.toList

/-- Python `str.isspace` / the `\s` regex class, for the characters that can
occur here: space, tab, newline, carriage return, vertical tab, form feed. -/
def isPySpace (c : Char) : Bool :=
  c = ' ' ∨ c = '\t' ∨ c = '\n' ∨ c = '\r' ∨ c = '\x0b' ∨ c = '\x0c'

/-- The ten ASCII digit characters; models the `\d` regex class on the ASCII
inputs this protocol deals in. -/
def isDig (c : Char) : Bool :=
  c ∈ ['0', '1', '2', '3', '4', '5', '6', '7', '8', '9']

/-- The regex class `[\w -]` from `rt/patterns.py`: word characters
(letters, digits, underscore), space and dash. -/
def wcls (c : Char) : Bool :=
  c.isAlpha ∨ isDig c ∨ c = '_' ∨ c = ' ' ∨ c = '-'

/-- Python `str.strip()`: remove leading and trailing whitespace. -/
def pyStrip (s : Str) : Str :=
  ((s.dropWhile isPySpace).reverse.dropWhile isPySpace).reverse

/-- Helper for `pySplitLines`: walk the characters, cutting at `'\n'`;
a final newline does not open a new (empty) line. -/
def splitLinesAux (acc : Str) : Str → List Str
  | [] => [acc.reverse]
  | c :: cs =>
    if c = '\n' then
      match cs with
      | [] => [acc.reverse]
      | _ :: _ => acc.reverse :: splitLinesAux [] cs
    else splitLinesAux (c :: acc) cs

/-- Python `str.splitlines()` for strings whose only line break is `'\n'`:
`"" ↦ []`, `"a\nb\n" ↦ ["a", "b"]`, `"a\nb" ↦ ["a", "b"]`. -/
def pySplitLines (s : Str) : List Str :=
  match s with
  | [] => []
  | _ :: _ => splitLinesAux [] s

/-- Python `sep.join(items)`. -/
def pyJoin (sep : Str) : List Str → Str
  | [] => []
  | x :: xs =>
    match xs with
    | [] => x
    | _ :: _ => x ++ sep ++ pyJoin sep xs

/-- Python `s.split(c)` for a single-character separator: always returns at
least one (possibly empty) piece, and keeps empty pieces. -/
def splitOnChar (sep : Char) : Str → List Str
  | [] => [[]]
  | c :: cs =>
    if c = sep then [] :: splitOnChar sep cs
    else
      match splitOnChar sep cs with
      | [] => [[c]]
      | p :: ps => (c :: p) :: ps

/-- A line made only of spaces/tabs (and at least one of them); these are the
lines `textwrap.dedent` blanks out before computing the margin. -/
def wsOnly (l : Str) : Bool :=
  ¬ l = [] ∧ l.all (fun c => c = ' ' ∨ c = '\t')

/-- Longest common prefix of two strings. -/
def commonPre : Str → Str → Str
  | a :: as, b :: bs => if a = b then a :: commonPre as bs else []
  | _, _ => []

/-- Leading run of spaces and tabs of a line. -/
def leadWs (l : Str) : Str := l.takeWhile (fun c => c = ' ' ∨ c = '\t')

/-- `textwrap.dedent`: whitespace-only lines are emptied; the margin is the
longest common leading whitespace of the remaining non-empty lines; the
margin is then removed from the front of every line that starts with it. -/
def dedent (text : Str) : Str :=
  let lines := (splitOnChar '\n' text).map (fun l => if wsOnly l then [] else l)
  let indents := (lines.filter (fun l => ¬ l = [])).map leadWs
  let margin : Str := match indents with
    | [] => ([] : Str)
    | i :: is => is.foldl commonPre i
  let out := lines.map (fun l =>
    if margin = [] then l
    else if margin.isPrefixOf l then l.drop margin.length else l)
  pyJoin ['\n'] out

/-- Result of matching `KEY_VALUE_LINE` from `rt/patterns.py`: the `key`
group and the `value` group (the rest of the line after the colon with
leading whitespace removed by the greedy `\s*`). -/
structure KVMatch where
  key : Str
  value : Str
  deriving DecidableEq, Repr

/-- The bare-name alternative `[\w -]+\??` of the key group, followed by the
literal colon.  Returns the key and the rest of the line after the colon.
The character class is closed under neither `'?'` nor `':'`, so the greedy
`[\w -]+` always matches exactly the maximal class run. -/
def matchBareKey (l : Str) : Option (Str × Str) :=
  let p := l.takeWhile wcls
  let rest := l.drop p.length
  if p = [] then none
  else
    match rest with
    | ':' :: r => some (p, r)
    | '?' :: ':' :: r => some (p ++ ['?'], r)
    | _ => none

/-- The custom-field alternative `CF\.\{[\w -]+\??\}` of the key group,
followed by the literal colon. -/
def matchCFKey (l : Str) : Option (Str × Str) :=
  if l.take 4 = str "CF.\x7b" then
    let l4 := l.drop 4
    let b := l4.takeWhile wcls
    let rest := l4.drop b.length
    if b = [] then none
    else
      match rest with
      | '}' :: ':' :: r => some (str "CF.\x7b" ++ b ++ ['}'], r)
      | '?' :: '}' :: ':' :: r => some (str "CF.\x7b" ++ b ++ ['?', '}'], r)
      | _ => none
  else none

/-- Matching a full `KEY_VALUE_LINE`: the custom-field alternative is tried
first (as in the regex alternation), then the bare-name one; the value is
the remainder of the line with its leading whitespace eaten by `\s*`. -/
def matchKeyValueLine (l : Str) : Option KVMatch :=
  match matchCFKey l with
  | some (k, r) => some ⟨k, r.dropWhile isPySpace⟩
  | none =>
    match matchBareKey l with
    | some (k, r) => some ⟨k, r.dropWhile isPySpace⟩
    | none => none

/-- Python exceptions raised by the embedded code paths. -/
inductive PyErr where
  | missingHeader
  | malformedHeader
  | indexError
  | valueError
  | conversionError
  | keyError
  deriving DecidableEq, Repr

instance {ε α : Type} [DecidableEq ε] [DecidableEq α] : DecidableEq (Except ε α) :=
  fun x y =>
    match x, y with
    | .ok a, .ok b =>
      decidable_of_iff (a = b) ⟨fun h => by rw [h], fun h => by injection h⟩
    | .error a, .error b =>
      decidable_of_iff (a = b) ⟨fun h => by rw [h], fun h => by injection h⟩
    | .ok _, .error _ => isFalse (fun h => Except.noConfusion h)
    | .error _, .ok _ => isFalse (fun h => Except.noConfusion h)

/-- Scanning pass of `RTData.from_lines`: walk the enumerated lines, skip
blank and comment lines, record `(index, key, value)` for each key line, and
fail with `ValueError` on a non-continuation line that matches nothing. -/
def scanKeyLines : List Str → Nat → Except PyErr (List (Nat × Str × Str))
  | [], _ => .ok []
  | l :: ls, i =>
    if l = [] ∨ l.head? = some '#' then scanKeyLines ls (i + 1)
    else
      match matchKeyValueLine l with
      | some kv =>
        match scanKeyLines ls (i + 1) with
        | .ok rest => .ok ((i, kv.key, kv.value) :: rest)
        | .error e => .error e
      | none =>
        if l.head? = some ' ' then scanKeyLines ls (i + 1) else .error .valueError

/-- The slice `lines[(i + 1):j]` of continuation lines between a key line at
`i` and the next key line at `j` (or the end of input). -/
def contSlice (lines : List Str) (i j : Nat) : List Str :=
  (lines.drop (i + 1)).take (j - (i + 1))

/-- Value assembly of `RTData.from_lines` for one key line: inline value if
non-empty, plus the dedented newline-joined continuation block if the slice
is non-empty, joined with a newline and stripped at the outer edges. -/
def buildValue (lines : List Str) (i : Nat) (sv : Str) (j : Nat) : Str :=
  let cont := contSlice lines i j
  let part1 : List Str := if sv = [] then [] else [sv]
  let part2 : List Str := if cont = [] then [] else [dedent (pyJoin ['\n'] cont)]
  pyStrip (pyJoin ['\n'] (part1 ++ part2))

/-- Pair each scanned key line with the index of the next key line (or the
total number of lines) and assemble its value. -/
def assemblePairs (lines : List Str) : List (Nat × Str × Str) → List (Str × Str)
  | [] => []
  | (i, k, sv) :: rest =>
    let j := match rest with
      | [] => lines.length
      | (j, _, _) :: _ => j
    (k, buildValue lines i sv j) :: assemblePairs lines rest

/-- Assignment `m[k] = v` on an insertion-ordered mapping (`OrderedDict`):
an existing key keeps its position and gets the new value, a new key is
appended at the end. -/
def odInsert (m : List (Str × α)) (k : Str) (v : α) : List (Str × α) :=
  if m.any (fun p => p.1 = k) then m.map (fun p => if p.1 = k then (k, v) else p)
  else m ++ [(k, v)]

/-- Building an `OrderedDict` from a list of pairs: repeated assignment. -/
def odOfPairs (ps : List (Str × α)) : List (Str × α) :=
  ps.foldl (fun m p => odInsert m p.1 p.2) []

/-- Mapping lookup (`m[k]` / `m.get(k)`), as an `Option`. -/
def assocLookup (k : Str) : List (Str × α) → Option α
  | [] => none
  | p :: m => if p.1 = k then some p.2 else assocLookup k m

/-- The ordered list of key/value pairs produced by `RTData.from_lines`
before they are fed to the `OrderedDict` constructor. -/
def rawPairs (lines : List Str) : Except PyErr (List (Str × Str)) :=
  match scanKeyLines lines 0 with
  | .ok kls => .ok (assemblePairs lines kls)
  | .error e => .error e

/-- `RTData.from_lines`: scan, assemble, and build the ordered mapping. -/
def fromLines (lines : List Str) : Except PyErr (List (Str × Str)) :=
  match rawPairs lines with
  | .ok ps => .ok (odOfPairs ps)
  | .error e => .error e

/-- Splitting pass of `RTMultipartData.from_lines`: iterate the lines with
their raw predecessor, skipping blank and comment lines; a non-skipped line
whose raw neighbours are blank and which is literally `--` closes the
current part.  The trailing `current_part` is never appended — faithfully
reproducing the code, which drops everything after the last separator. -/
def multiSplitAux (prev : Option Str) (cur : List Str) (parts : List (List Str)) :
    List Str → List (List Str)
  | [] => parts
  | l :: rest =>
    if l = [] ∨ l.head? = some '#' then multiSplitAux (some l) cur parts rest
    else if prev = some [] ∧ l = ['-', '-'] ∧ rest.head? = some [] then
      multiSplitAux (some l) [] (parts ++ [cur]) rest
    else multiSplitAux (some l) (cur ++ [l]) parts rest

/-- Parse each part of a multipart split with the single-record parser,
in order, propagating the first parse error. -/
def partsFromLines : List (List Str) → Except PyErr (List (List (Str × Str)))
  | [] => .ok []
  | p :: ps =>
    match fromLines p with
    | .ok r =>
      match partsFromLines ps with
      | .ok rs => .ok (r :: rs)
      | .error e => .error e
    | .error e => .error e

/-- `RTMultipartData.from_lines`: split into parts, then parse each part
with the single-record parser. -/
def multiFromLines (lines : List Str) : Except PyErr (List (List (Str × Str))) :=
  partsFromLines (multiSplitAux none [] [] lines)

/-- A Python `datetime.datetime` value. -/
structure PyDateTime where
  year : Nat
  month : Nat
  day : Nat
  hour : Nat
  minute : Nat
  second : Nat
  microsecond : Nat
  deriving DecidableEq, Repr

/-- A Python value held in an `RTData` field after deserialization: a raw
string, a parsed datetime, a list of strings, or `None`. -/
inductive PyValue where
  | str : Str → PyValue
  | dt : PyDateTime → PyValue
  | list : List Str → PyValue
  | pynone : PyValue
  deriving DecidableEq, Repr

/-- Decimal digit character for a value below ten. -/
def digitChar (n : Nat) : Char :=
  ['0', '1', '2', '3', '4', '5', '6', '7', '8', '9'].getD n '0'

/-- Numeric value of a decimal digit character. -/
def charVal : Char → Nat
  | '1' => 1
  | '2' => 2
  | '3' => 3
  | '4' => 4
  | '5' => 5
  | '6' => 6
  | '7' => 7
  | '8' => 8
  | '9' => 9
  | _ => 0

/-- Value of a string of decimal digits. -/
def digitsToNat (s : Str) : Nat := s.foldl (fun a c => 10 * a + charVal c) 0

/-- Decimal rendering with explicit fuel (the fuel `n + 1` always suffices). -/
def natToStrAux : Nat → Nat → Str
  | 0, _ => []
  | fuel + 1, n =>
    if n < 10 then [digitChar n] else natToStrAux fuel (n / 10) ++ [digitChar (n % 10)]

/-- Decimal rendering of a natural number. -/
def natToStr (n : Nat) : Str := natToStrAux (n + 1) n

/-- Zero-padded decimal rendering of width `w` (Python `'%0*d'`). -/
def padZ (w : Nat) (n : Nat) : Str :=
  let d := natToStr n
  List.replicate (w - d.length) '0' ++ d

/-- Python `str(datetime)`: `YYYY-MM-DD HH:MM:SS`, with a `.ffffff`
fraction appended only when the microsecond field is non-zero. -/
def pyStrDatetime (d : PyDateTime) : Str :=
  padZ 4 d.year ++ ['-'] ++ padZ 2 d.month ++ ['-'] ++ padZ 2 d.day ++ [' '] ++
  padZ 2 d.hour ++ [':'] ++ padZ 2 d.minute ++ [':'] ++ padZ 2 d.second ++
  (if d.microsecond = 0 then [] else ['.'] ++ padZ 6 d.microsecond)

/-- Gregorian leap year, as used by `datetime`. -/
def isLeap (y : Nat) : Bool := (y % 4 = 0 ∧ ¬ y % 100 = 0) ∨ y % 400 = 0

/-- Number of days in a month, as used by `datetime`. -/
def daysInMonth (y m : Nat) : Nat :=
  if m = 2 then (if isLeap y then 29 else 28)
  else if m ∈ [4, 6, 9, 11] then 30 else 31

/-- Field ranges enforced by the `datetime.datetime` constructor. -/
def PyDateTime.valid (d : PyDateTime) : Prop :=
  1 ≤ d.year ∧ d.year ≤ 9999 ∧ 1 ≤ d.month ∧ d.month ≤ 12 ∧
  1 ≤ d.day ∧ d.day ≤ daysInMonth d.year d.month ∧
  d.hour ≤ 23 ∧ d.minute ≤ 59 ∧ d.second ≤ 59 ∧ d.microsecond ≤ 999999

instance (d : PyDateTime) : Decidable d.valid := by
  unfold PyDateTime.valid
  infer_instance

/-- Read exactly `n` decimal digits from the front of a string. -/
def parseNDigits (n : Nat) (s : Str) : Option (Nat × Str) :=
  let ds := s.take n
  if ds.length = n ∧ ds.all isDig then some (digitsToNat ds, s.drop n) else none

/-- Require a literal character at the front of a string. -/
def expectChar (c : Char) : Str → Option Str
  | a :: r => if a = c then some r else none
  | [] => none

/-- Models `datetime.strptime(s, '%Y-%m-%d %H:%M:%S')` combined with the
range checks of the `datetime` constructor, restricted to zero-padded
two-digit fields — the canonical shape `str(datetime)` produces and the only
shape any theorem below feeds it (Python additionally accepts some
unpadded variants, which are irrelevant here). -/
def strptimeIso (s : Str) : Option PyDateTime := do
  let (y, s1) ← parseNDigits 4 s
  let s2 ← expectChar '-' s1
  let (mo, s3) ← parseNDigits 2 s2
  let s4 ← expectChar '-' s3
  let (da, s5) ← parseNDigits 2 s4
  let s6 ← expectChar ' ' s5
  let (h, s7) ← parseNDigits 2 s6
  let s8 ← expectChar ':' s7
  let (mi, s9) ← parseNDigits 2 s8
  let s10 ← expectChar ':' s9
  let (se, s11) ← parseNDigits 2 s10
  if s11 = [] ∧ 1 ≤ y ∧ 1 ≤ mo ∧ mo ≤ 12 ∧ 1 ≤ da ∧ da ≤ daysInMonth y mo ∧
      h ≤ 23 ∧ mi ≤ 59 ∧ se ≤ 59 then
    some ⟨y, mo, da, h, mi, se, 0⟩
  else none

/-- Lower-cased copy of a string (the `re.IGNORECASE` matching of
`strptime` name fields is modelled by lower-casing both sides). -/
def lowerStr (s : Str) : Str := s.map Char.toLower

/-- Month number of a lower-cased month-name abbreviation. -/
def monthNum (s : Str) : Option Nat :=
  if s = str "jan" then some 1
  else if s = str "feb" then some 2
  else if s = str "mar" then some 3
  else if s = str "apr" then some 4
  else if s = str "may" then some 5
  else if s = str "jun" then some 6
  else if s = str "jul" then some 7
  else if s = str "aug" then some 8
  else if s = str "sep" then some 9
  else if s = str "oct" then some 10
  else if s = str "nov" then some 11
  else if s = str "dec" then some 12
  else none

/-- Models `datetime.strptime(s, '%a %b %d %H:%M:%S %Y')` (the first entry
of `DATETIME_FORMATS`) with the constructor range checks, restricted to
single-space separation and zero-padded two-digit fields.  The format
requires a weekday-name abbreviation first, so it never matches the
digit-initial strings `str(datetime)` produces. -/
def strptimeCtime (s : Str) : Option PyDateTime := do
  let w := lowerStr (s.take 3)
  if [str "mon", str "tue", str "wed", str "thu", str "fri", str "sat",
      str "sun"].any (fun x => x = w) then do
    let s1 ← expectChar ' ' (s.drop 3)
    let mo ← monthNum (lowerStr (s1.take 3))
    let s2 ← expectChar ' ' (s1.drop 3)
    let (da, s3) ← parseNDigits 2 s2
    let s4 ← expectChar ' ' s3
    let (h, s5) ← parseNDigits 2 s4
    let s6 ← expectChar ':' s5
    let (mi, s7) ← parseNDigits 2 s6
    let s8 ← expectChar ':' s7
    let (se, s9) ← parseNDigits 2 s8
    let s10 ← expectChar ' ' s9
    let (y, s11) ← parseNDigits 4 s10
    if s11 = [] ∧ 1 ≤ y ∧ 1 ≤ da ∧ da ≤ daysInMonth y mo ∧
        h ≤ 23 ∧ mi ≤ 59 ∧ se ≤ 59 then
      some ⟨y, mo, da, h, mi, se, 0⟩
    else none
  else none

/-- `RTDataSerializer.convert_to_datetime`: empty string becomes `None`,
otherwise the two formats of `DATETIME_FORMATS` are tried in order and
exhausting them raises `RTConversionError`. -/
def convertToDatetime (s : Str) : Except PyErr PyValue :=
  if s = [] then .ok .pynone
  else
    match strptimeCtime s with
    | some d => .ok (.dt d)
    | none =>
      match strptimeIso s with
      | some d => .ok (.dt d)
      | none => .error .conversionError

/-- `RTDataSerializer.convert_to_list`: split on commas, strip each item,
drop empty items. -/
def convertToList (s : Str) : List Str :=
  if s = [] then []
  else ((splitOnChar ',' s).map pyStrip).filter (fun x => ¬ x = [])

/-- Scalar rendering branch of `RTDataSerializer.serialize`: stringify and
strip, then re-fold the lines of a multiline field (`Text`) with a
one-space indent. -/
def serializeScalar (n : Str) (sv : Str) : Str :=
  let v := pyStrip sv
  if n = str "Text" then pyJoin (str "\n ") (pySplitLines v) else v

/-- Value rendering of `RTDataSerializer.serialize`: a non-string sequence
is comma-joined then stripped; anything else is stringified and stripped
(`str(None)` is the text `None`). -/
def serializeValue (n : Str) (v : PyValue) : Str :=
  match v with
  | .list xs => pyStrip (pyJoin (str ", ") xs)
  | .str s => serializeScalar n s
  | .dt d => serializeScalar n (pyStrDatetime d)
  | .pynone => serializeScalar n (str "None")

/-- `RTDataSerializer.serialize`: one `name: value` line per field in
order, a trailing blank line, all joined with newlines. -/
def serialize (data : List (Str × PyValue)) : Str :=
  pyJoin ['\n'] ((data.map (fun p => p.1 ++ str ": " ++ serializeValue p.1 p.2)) ++ [[]])

/-- Per-field conversion of `RTDataSerializer.deserialize`, driven by
`conversion_map` (`Created`/`LastUpdated` to datetime, `Requestors` to
list); any other field keeps its raw string. -/
def deserializeField (n : Str) (v : Str) : Except PyErr PyValue :=
  if n = str "Created" ∨ n = str "LastUpdated" then convertToDatetime v
  else if n = str "Requestors" then .ok (.list (convertToList v))
  else .ok (.str v)

/-- `RTDataSerializer.deserialize`: convert the fields in order into a
fresh `RTData`, raising the first conversion error.  The items of a mapping
have pairwise distinct keys, so the fresh-dict insertions are plain
appends. -/
def deserialize : List (Str × Str) → Except PyErr (List (Str × PyValue))
  | [] => .ok []
  | p :: ps =>
    match deserializeField p.1 p.2 with
    | .ok v =>
      match deserialize ps with
      | .ok rest => .ok ((p.1, v) :: rest)
      | .error e => .error e
    | .error e => .error e

/-- `RTData.from_string`: split into lines, then `from_lines`. -/
def fromString (content : Str) : Except PyErr (List (Str × Str)) :=
  fromLines (pySplitLines content)

/-- The round trip of the spec: serialize a typed record, parse the text
back, deserialize the raw record. -/
def roundTrip (data : List (Str × PyValue)) : Except PyErr (List (Str × PyValue)) :=
  match fromString (serialize data) with
  | .ok raw => deserialize raw
  | .error e => .error e

/-- `RTMultipartData.deserialize`: deserialize each part, keeping order. -/
def multiDeserialize : List (List (Str × Str)) →
    Except PyErr (List (List (Str × PyValue)))
  | [] => .ok []
  | r :: rs =>
    match deserialize r with
    | .ok d =>
      match multiDeserialize rs with
      | .ok ds => .ok (d :: ds)
      | .error e => .error e
    | .error e => .error e

/-- A dynamically typed Python scalar, used to state what type of value an
attribute actually holds. -/
inductive DynVal where
  | int : Nat → DynVal
  | str : Str → DynVal
  deriving DecidableEq, Repr

/-- The parsed body of a response: a single record or a multipart list. -/
inductive RTBody where
  | single : List (Str × PyValue) → RTBody
  | multi : List (List (Str × PyValue)) → RTBody
  deriving DecidableEq, Repr

/-- The attributes `RTResponse.__init__` computes. -/
structure RTResponseData where
  version : Str
  status_code : DynVal
  reason : Str
  details : List Str
  detail : Str
  data : RTBody
  deriving DecidableEq, Repr

/-- The version group `(\d+\.)+(\d+\.)*\d+` of `HEADER_RE`: at least two
dot-separated non-empty digit groups. -/
def validVersion (v : Str) : Bool :=
  ¬ v = [] ∧ (splitOnChar '.' v).length ≥ 2 ∧
    (splitOnChar '.' v).all (fun g => ¬ g = [] ∧ g.all isDig)

/-- The trailing `\s+(?P<reason>.+?)\s*$` of `HEADER_RE`: at least one
whitespace character, then the reason with outer whitespace trimmed; when
everything after the status code is whitespace, backtracking leaves the
final whitespace character as the reason. -/
def headerReason (r : Str) : Option Str :=
  match r with
  | [] => none
  | c :: rest =>
    if isPySpace c then
      let core := pyStrip r
      if ¬ core = [] then some core
      else
        match rest with
        | [] => none
        | _ :: _ => some [r.reverse.headD ' ']
    else none

/-- `RTResponse.get_meta`, i.e. matching `HEADER_RE`: the literal `RT/`,
the dotted version, whitespace, a three-digit status code, whitespace and
the reason.  The version group is a maximal run of digits and dots (no
shorter run can be followed by the required whitespace). -/
def matchHeader (l : Str) : Option (Str × Str × Str) :=
  if l.take 3 = str "RT/" then
    let r0 := l.drop 3
    let ver := r0.takeWhile (fun c => isDig c ∨ c = '.')
    if validVersion ver then
      let r1 := r0.drop ver.length
      let ws1 := r1.takeWhile isPySpace
      if ws1 = [] then none
      else
        let r2 := r1.drop ws1.length
        if (r2.take 3).length = 3 ∧ (r2.take 3).all isDig then
          match headerReason (r2.drop 3) with
          | some rsn => some (ver, r2.take 3, rsn)
          | none => none
        else none
    else none
  else none

/-- `RTResponse.get_detail`, i.e. matching `DETAIL_RE` and stripping: a
line starting with `#` whose remainder has non-whitespace content.  Python
returns the empty string for a whitespace-only remainder; both it and a
failed match are falsy in the caller's loop, so both are `none` here. -/
def getDetail (l : Str) : Option Str :=
  match l with
  | '#' :: rest =>
    let d := pyStrip rest
    if d = [] then none else some d
  | _ => none

/-- The detail-collection loop of `RTResponse.__init__`: `lines[i]` is
indexed without a bounds check, so running past the last line raises
`IndexError`; the loop stops at the first line that is not a detail. -/
def detailLoop : List Str → Except PyErr (List Str)
  | [] => .error .indexError
  | l :: rest =>
    match getDetail l with
    | some d =>
      match detailLoop rest with
      | .ok ds => .ok (d :: ds)
      | .error e => .error e
    | none => .ok []

/-- Body parsing of `RTResponse.__init__`: the remaining lines go to the
single-record or multipart parser and are then deserialized. -/
def parseBody (multipart : Bool) (lines : List Str) : Except PyErr RTBody :=
  if multipart then
    match multiFromLines lines with
    | .ok items =>
      match multiDeserialize items with
      | .ok ds => .ok (.multi ds)
      | .error e => .error e
    | .error e => .error e
  else
    match fromLines lines with
    | .ok r =>
      match deserialize r with
      | .ok d => .ok (.single d)
      | .error e => .error e
    | .error e => .error e

/-- Blank-line check after a detail run (`if self.details: if
lines[len(self.details)]: raise`): nothing to check for an empty run, an
out-of-range index raises `IndexError`, a non-blank line the
malformed-header error. -/
def sepCheckAfterDetails (rest1 ds : List Str) : Except PyErr Unit :=
  if ds = [] then .ok ()
  else
    match rest1.get? ds.length with
    | none => .error .indexError
    | some lsep =>
      if ¬ lsep = [] then .error .malformedHeader else .ok ()

/-- Final assembly of `RTResponse.__init__`: run the post-detail blank-line
check, parse and deserialize the body, and populate the attributes. -/
def buildResponse (rest1 : List Str) (multipart : Bool) (ver code rsn : Str)
    (ds : List Str) : Except PyErr RTResponseData :=
  match sepCheckAfterDetails rest1 ds with
  | .error e => .error e
  | .ok _ =>
    match parseBody multipart rest1 with
    | .ok body => .ok ⟨ver, DynVal.str code, rsn, ds, pyJoin ['\n'] ds, body⟩
    | .error e => .error e

/-- Detail and body stages of `RTResponse.__init__` on the lines after the
meta line and its blank separator: collect detail lines (`lines[i]` raises
`IndexError` past the end), then check the separator and build the
response. -/
def parseDetailsAndBody (rest1 : List Str) (multipart : Bool)
    (ver code rsn : Str) : Except PyErr RTResponseData :=
  match detailLoop rest1 with
  | .error e => .error e
  | .ok ds => buildResponse rest1 multipart ver code rsn ds

/-- Separator stage of `RTResponse.__init__`: the line after the meta line
must exist (`lines[0]` raises `IndexError` otherwise) and be blank
(malformed-header error otherwise). -/
def parseAfterHeader (rest : List Str) (multipart : Bool) (ver code rsn : Str) :
    Except PyErr RTResponseData :=
  match rest with
  | [] => .error .indexError
  | l1 :: rest1 =>
    if ¬ l1 = [] then .error .malformedHeader
    else parseDetailsAndBody rest1 multipart ver code rsn

/-- Meta stage of `RTResponse.__init__` on the split lines: no lines at all
is the missing-header error, a first line not matching `HEADER_RE` the
malformed-header error; the matched version, status code and reason
(strings as captured) go into the response attributes. -/
def parseFromLines (lines : List Str) (multipart : Bool) :
    Except PyErr RTResponseData :=
  match lines with
  | [] => .error .missingHeader
  | l0 :: rest =>
    match matchHeader l0 with
    | none => .error .malformedHeader
    | some (ver, code, rsn) => parseAfterHeader rest multipart ver code rsn

/-- `RTResponse.__init__` over the full response text: split into lines and
run the staged envelope parse.  The status code attribute is assigned the
matched text, a string. -/
def parseRTResponse (content : Str) (multipart : Bool) :
    Except PyErr RTResponseData :=
  parseFromLines (pySplitLines content) multipart

/-- `parse_cf_name` / `CUSTOM_FIELD_RE`: a full-string match of
`CF.{[\w -]+\??}` whose captured group excludes the optional trailing
question mark. -/
def parseCfName (s : Str) : Option Str :=
  if s.take 4 = str "CF.\x7b" ∧ s.getLast? = some '}' then
    let body := (s.drop 4).dropLast
    if body = [] then none
    else if body.all wcls then some body
    else if body.getLast? = some '?' ∧ ¬ body.dropLast = [] ∧ body.dropLast.all wcls then
      some body.dropLast
    else none
  else none

/-- `to_cf_name`: an already-wrapped name yields its captured inner name
(the code returns the truthy capture), anything else is wrapped. -/
def toCfName (n : Str) : Str :=
  match parseCfName n with
  | some cf => cf
  | none => str "CF.\x7b" ++ n ++ ['}']

/-- `RTCustomFields.__iter__`: the inner names of the container keys that
parse as custom-field keys, in container order. -/
def cfIter (r : List (Str × α)) : List Str :=
  (r.map Prod.fst).filterMap parseCfName

/-- `RTCustomFields.__getitem__`: bare-name access; an already-wrapped name
raises `KeyError`, otherwise the name is wrapped and looked up in the
container, a missing wrapped key raising `KeyError`. -/
def cfGetItem (r : List (Str × α)) (name : Str) : Except PyErr α :=
  if (parseCfName name).isSome then .error .keyError
  else
    match assocLookup (toCfName name) r with
    | some v => .ok v
    | none => .error .keyError

/-- One outcome of attempting a wrapped RT operation: success, the
authentication-failure condition, or any other exception. -/
inductive OpOutcome (α : Type) where
  | ok : α → OpOutcome α
  | authErr : OpOutcome α
  | otherErr : OpOutcome α
  deriving DecidableEq, Repr

/-- The class of an exception stored as a task result. -/
inductive PyExc where
  | auth : PyExc
  | other : PyExc
  deriving DecidableEq, Repr

/-- A task result: a returned value or a raised exception. -/
inductive TaskResult (α : Type) where
  | value : α → TaskResult α
  | exc : PyExc → TaskResult α
  deriving DecidableEq, Repr

/-- The mutable state of a `Task`: the result slot (`none` models the
`PENDING` sentinel) and the `ready` event flag. -/
structure TaskState (α : Type) where
  result : Option (TaskResult α)
  ready : Bool
  deriving DecidableEq, Repr

/-- A freshly constructed `Task`: pending result, unset event. -/
def newTask (α : Type) : TaskState α := ⟨none, false⟩

/-- `Task.set_result`: raise `ValueError` (leaving the state unchanged) if
the result was already set, otherwise store the result and set the event. -/
def setResult (t : TaskState α) (r : TaskResult α) : TaskState α × Option PyErr :=
  if t.result.isSome then (t, some .valueError) else (⟨some r, true⟩, none)

/-- `Task.get_result`: wait for the event, then read the slot; modelled as
defined exactly when the event has fired. -/
def taskWaitResult (t : TaskState α) : Option (TaskResult α) :=
  if t.ready then t.result else none

/-- `RTFrontEnd.get_result`: wait for the task's result and re-raise it if
it is an exception. -/
def frontGetResult (t : TaskState α) : Option (Except PyExc α) :=
  (taskWaitResult t).map (fun r =>
    match r with
    | .value v => .ok v
    | .exc e => .error e)

/-- The liveness state of a `Worker`: its explicit kill flag and whether
its lifetime has elapsed. -/
structure WorkerState where
  killed : Bool
  expired : Bool
  deriving DecidableEq, Repr

/-- `Worker.is_dead`: killed or expired. -/
def isDead (w : WorkerState) : Bool := w.killed ∨ w.expired

/-- `RTFrontEnd.make_worker`: a fresh worker, alive and within lifetime. -/
def makeWorker : WorkerState := ⟨false, false⟩

/-- One iteration of `Worker.run` on a dequeued task, with the wrapped
operation's successive attempts given by `op`: attempt the operation; on
the authentication-failure condition log out and retry exactly once; any
failure of the retry, or any other first failure, becomes the result and
kills the worker. -/
def handleTask (w : WorkerState) (op : Nat → OpOutcome α) :
    TaskResult α × WorkerState :=
  match op 0 with
  | .ok v => (.value v, w)
  | .otherErr => (.exc .other, { w with killed := true })
  | .authErr =>
    match op 1 with
    | .ok v => (.value v, w)
    | .authErr => (.exc .auth, { w with killed := true })
    | .otherErr => (.exc .other, { w with killed := true })

/-- The pool state of `RTFrontEnd`: the worker list and the task queue. -/
structure PoolState (α : Type) where
  workers : List WorkerState
  queue : List (TaskState α)
  deriving DecidableEq, Repr

/-- `RTFrontEnd.check_workers`: every dead worker is replaced in place by a
freshly made one. -/
def checkWorkers (ws : List WorkerState) : List WorkerState :=
  ws.map (fun w => if isDead w then makeWorker else w)

/-- `RTFrontEnd.add_task`: run the health check, then enqueue the task. -/
def addTask (p : PoolState α) (t : TaskState α) : PoolState α :=
  { workers := checkWorkers p.workers, queue := p.queue ++ [t] }

/-! ## Theorems -/

/-- C8: parsing the line sequence `["Key: a", "    b", "    c"]` yields a
record with exactly one field `Key` whose value is `"a\nb\nc"`: the common
two-space (here four-space) indent is stripped from the continuation block,
the block lines are joined with newlines, and the inline value is joined to
the block with a newline. -/
theorem claim_c8_continuation_folding :
    fromLines [str "Key: a", str "    b", str "    c"] =
      .ok [(str "Key", str "a\nb\nc")] := by decide

/-- C2 counterexample: parsing the envelope of the given input does not
yield the numeric (integer) status code 200 — `RTResponse.__init__` stores
the matched header text, so the attribute holds the string `"200"` and
Python's `== 200` is false for it. -/
theorem claim_c2_status_code_not_numeric :
    ¬ (parseRTResponse
        (str "RT/4.0.5 200 Ok\n\n# Ticket 1234 created.\n\nid: 1234\n")
        false).map RTResponseData.status_code = .ok (DynVal.int 200) := by decide

/-- C2 amended: parsing the response envelope for the input
`"RT/4.0.5 200 Ok\n\n# Ticket 1234 created.\n\nid: 1234\n"` yields the
status code as the string `"200"` (no numeric conversion is performed),
reason `"Ok"`, details equal to `["Ticket 1234 created."]`, and a body
record mapping `"id"` to `"1234"`. -/
theorem claim_c2_envelope :
    parseRTResponse (str "RT/4.0.5 200 Ok\n\n# Ticket 1234 created.\n\nid: 1234\n")
        false =
      .ok ⟨str "4.0.5", DynVal.str (str "200"), str "Ok",
        [str "Ticket 1234 created."], str "Ticket 1234 created.",
        RTBody.single [(str "id", PyValue.str (str "1234"))]⟩ := by decide

/-- C3: evaluating `RTMultipartData.from_lines` on three record parts
separated by the blank/`--`/blank separator shows that only the first two
parts survive — the loop appends `current_part` only when it meets a
separator, so the part after the last separator is dropped and the result
has length 2, not 3. -/
theorem claim_c3_last_part_dropped :
    multiFromLines [str "a: 1", str "", str "--", str "", str "b: 2", str "",
        str "--", str "", str "c: 3"] =
      .ok [[(str "a", str "1")], [(str "b", str "2")]] ∧
    (multiFromLines [str "a: 1", str "", str "--", str "", str "b: 2", str "",
        str "--", str "", str "c: 3"]).map List.length = .ok 2 := by decide

/-- C9: a task's result slot is single-assignment — the first `set_result`
stores the value and fires the completion signal, after which `get_result`
returns exactly that value; a second `set_result` raises `ValueError` and
leaves the stored state unchanged. -/
theorem claim_c9_single_assignment (α : Type) (r r2 : TaskResult α) :
    (setResult (newTask α) r).2 = none ∧
    (setResult (newTask α) r).1.result = some r ∧
    (setResult (newTask α) r).1.ready = true ∧
    taskWaitResult (setResult (newTask α) r).1 = some r ∧
    (setResult (setResult (newTask α) r).1 r2).2 = some PyErr.valueError ∧
    (setResult (setResult (newTask α) r).1 r2).1 = (setResult (newTask α) r).1 := by
  simp [setResult, newTask, taskWaitResult]

/-- C5 counterexample: a comment line between a key line and the end of
input is folded into the preceding key's value — `["Key: a", "# c"]` parses
to value `"a\n# c"`, which differs from the parse with the comment absent. -/
theorem claim_c5_comment_folded :
    fromLines [str "Key: a", str "# c"] = .ok [(str "Key", str "a\n# c")] ∧
    fromLines [str "Key: a"] = .ok [(str "Key", str "a")] := by decide

/-- C1 counterexample: the round trip is not the identity on every record
whose values already have the declared target types — the string value
`" x"` is stripped by `serialize`, so the record `[("A", " x")]` comes back
as `[("A", "x")]`. -/
theorem claim_c1_not_universal :
    ¬ roundTrip [(str "A", PyValue.str (str " x"))] =
      .ok [(str "A", PyValue.str (str " x"))] := by decide

/-- The health check leaves a list of live workers unchanged. -/
theorem checkWorkers_live (ws : List WorkerState) (h : ∀ u ∈ ws, isDead u = false) :
    checkWorkers ws = ws := by
  induction ws with
  | nil => rfl
  | cons a l ih =>
    have ha := h a (List.mem_cons_self a l)
    have hl := ih (fun u hu => h u (List.mem_cons_of_mem a hu))
    show (if isDead a then makeWorker else a) :: checkWorkers l = a :: l
    simp [ha, hl]

/-- C4: an operation that raises the authentication-failure condition on
the first attempt and succeeds on the second returns the success value to
the caller (visible through the task's result and `get_result`) and leaves
the worker alive; an operation that raises it on both attempts has the
second failure stored as the task's result and re-raised by `get_result`,
the worker is marked killed, and the health check run by the next
`add_task` replaces that killed worker with a fresh one before the new
task is enqueued. -/
theorem claim_c4_retry_and_replace (α : Type) (opA opB : Nat → OpOutcome α) (v : α)
    (w : WorkerState) (ws1 ws2 : List WorkerState) (q : List (TaskState α))
    (t : TaskState α)
    (hw : w.killed = false)
    (hA0 : opA 0 = .authErr) (hA1 : opA 1 = .ok v)
    (hB0 : opB 0 = .authErr) (hB1 : opB 1 = .authErr)
    (hLive : ∀ u ∈ ws1 ++ ws2, isDead u = false) :
    handleTask w opA = (.value v, w) ∧
    frontGetResult (setResult (newTask α) (handleTask w opA).1).1 = some (.ok v) ∧
    (handleTask w opA).2.killed = false ∧
    (handleTask w opB).1 = .exc .auth ∧
    (handleTask w opB).2.killed = true ∧
    (setResult (newTask α) (handleTask w opB).1).1.result = some (.exc .auth) ∧
    frontGetResult (setResult (newTask α) (handleTask w opB).1).1 =
      some (.error .auth) ∧
    addTask ⟨ws1 ++ (handleTask w opB).2 :: ws2, q⟩ t =
      ⟨ws1 ++ makeWorker :: ws2, q ++ [t]⟩ := by
  have hA : handleTask w opA = (.value v, w) := by
    simp [handleTask, hA0, hA1]
  have hB : handleTask w opB = (.exc .auth, { w with killed := true }) := by
    simp [handleTask, hB0, hB1]
  have h1 : ∀ u ∈ ws1, isDead u = false :=
    fun u hu => hLive u (List.mem_append_left _ hu)
  have h2 : ∀ u ∈ ws2, isDead u = false :=
    fun u hu => hLive u (List.mem_append_right _ hu)
  refine ⟨hA, ?_, ?_, ?_, ?_, ?_, ?_, ?_⟩
  · rw [hA]
    simp [frontGetResult, setResult, newTask, taskWaitResult]
  · rw [hA]
    exact hw
  · rw [hB]
  · rw [hB]
  · rw [hB]
    simp [setResult, newTask]
  · rw [hB]
    simp [frontGetResult, setResult, newTask, taskWaitResult]
  · rw [hB]
    simp only [addTask, PoolState.mk.injEq]
    refine ⟨?_, trivial⟩
    show (ws1 ++ { w with killed := true } :: ws2).map
        (fun u => if isDead u then makeWorker else u) = ws1 ++ makeWorker :: ws2
    rw [List.map_append, List.map_cons]
    rw [show ws1.map (fun u => if isDead u then makeWorker else u) = ws1 from
      checkWorkers_live ws1 h1]
    rw [show ws2.map (fun u => if isDead u then makeWorker else u) = ws2 from
      checkWorkers_live ws2 h2]
    simp [isDead]

/-- C4 witness: the retry theorem applied to a concrete pool — an operation
failing once then returning 7 yields the value 7 with the worker intact,
and an operation failing twice leaves the worker killed. -/
theorem claim_c4_witness :
    handleTask (⟨false, false⟩ : WorkerState)
        (fun n => if n = 0 then OpOutcome.authErr else OpOutcome.ok 7) =
      (TaskResult.value 7, (⟨false, false⟩ : WorkerState)) ∧
    (handleTask (⟨false, false⟩ : WorkerState)
        (fun _ => (OpOutcome.authErr : OpOutcome Nat))).2.killed = true := by
  have h := claim_c4_retry_and_replace Nat
    (fun n => if n = 0 then OpOutcome.authErr else OpOutcome.ok 7)
    (fun _ => OpOutcome.authErr) 7 ⟨false, false⟩ [] [] [] (newTask Nat)
    rfl rfl rfl rfl rfl (by simp)
  exact ⟨h.1, h.2.2.2.2.1⟩

/-- The custom-field regex on a wrapped name whose inner name ends in `?`:
the capture group excludes the trailing question mark. -/
theorem parseCfName_wrapped (m : Str) (hne : m ≠ []) (hw : m.all wcls = true) :
    parseCfName (str "CF.\x7b" ++ m ++ str "?\x7d") = some m := by
  have hsplit : str "CF.\x7b" ++ m ++ str "?\x7d" =
      str "CF.\x7b" ++ ((m ++ ['?']) ++ ['}']) := by
    simp [str]
  rw [hsplit]
  have h4 : (str "CF.\x7b" ++ ((m ++ ['?']) ++ ['}'])).take 4 = str "CF.\x7b" :=
    List.take_left' (by rfl)
  have hdrop : (str "CF.\x7b" ++ ((m ++ ['?']) ++ ['}'])).drop 4 = (m ++ ['?']) ++ ['}'] :=
    List.drop_left' (by rfl)
  have hlast : (str "CF.\x7b" ++ ((m ++ ['?']) ++ ['}'])).getLast? = some '}' := by
    rw [show str "CF.\x7b" ++ ((m ++ ['?']) ++ ['}']) =
      (str "CF.\x7b" ++ (m ++ ['?'])) ++ ['}'] by simp]
    exact List.getLast?_concat _
  have hq : wcls '?' = false := by decide
  unfold parseCfName
  rw [if_pos ⟨h4, hlast⟩, hdrop, List.dropLast_concat]
  rw [if_neg (by simp)]
  rw [if_neg (by simp [List.all_append, hq])]
  rw [if_pos ⟨List.getLast?_concat _, by simpa using hne, by simpa using hw⟩]
  simp

/-- A string made only of `[\w -]` characters is not a wrapped custom-field
key (its last character cannot be the closing brace). -/
theorem parseCfName_of_wcls (m : Str) (hw : m.all wcls = true) :
    parseCfName m = none := by
  have hcond : ¬ (m.take 4 = str "CF.\x7b" ∧ m.getLast? = some '}') := by
    rintro ⟨-, h2⟩
    have hmem : '}' ∈ m := List.mem_of_mem_getLast? (by simp [h2])
    exact absurd (List.all_eq_true.mp hw '}' hmem) (by decide)
  unfold parseCfName
  rw [if_neg hcond]

/-- C10: for a custom field stored under the wrapped key `CF.{name?}`,
iterating the custom-fields view yields the inner name with the trailing
`?` stripped, and reading the view back with that yielded name raises
`KeyError`, because the bare-to-wrapped translation rebuilds the key as
`CF.{name}` without the question mark. -/
theorem claim_c10_question_mark_cf (m : Str) (r : List (Str × Str)) (hne : m ≠ [])
    (hw : m.all wcls = true)
    (hmem : (str "CF.\x7b" ++ m ++ str "?\x7d") ∈ r.map Prod.fst)
    (habs : assocLookup (str "CF.\x7b" ++ m ++ ['}']) r = none) :
    parseCfName (str "CF.\x7b" ++ m ++ str "?\x7d") = some m ∧
    m ∈ cfIter r ∧
    cfGetItem r m = .error .keyError := by
  have hp := parseCfName_wrapped m hne hw
  have hnone := parseCfName_of_wcls m hw
  refine ⟨hp, List.mem_filterMap.mpr ⟨_, hmem, hp⟩, ?_⟩
  simp only [cfGetItem, toCfName, hnone, Option.isSome_none, Bool.false_eq_true,
    if_false, habs]

/-- C10 witness: the custom-field theorem at the concrete record
`{"CF.{Approved?}": "yes"}` and inner name `Approved`. -/
theorem claim_c10_witness :
    parseCfName (str "CF.\x7b" ++ str "Approved" ++ str "?\x7d") =
      some (str "Approved") ∧
    str "Approved" ∈ cfIter [(str "CF.\x7b" ++ str "Approved" ++ str "?\x7d", str "yes")] ∧
    cfGetItem [(str "CF.\x7b" ++ str "Approved" ++ str "?\x7d", str "yes")]
        (str "Approved") = .error .keyError :=
  claim_c10_question_mark_cf (str "Approved")
    [(str "CF.\x7b" ++ str "Approved" ++ str "?\x7d", str "yes")]
    (by decide) (by decide) (by decide) (by decide)

/-- Shifting the scan's start index shifts every recorded key-line index. -/
theorem scanKeyLines_shift (ls : List Str) (j k : Nat) :
    scanKeyLines ls (j + k) =
      (scanKeyLines ls j).map (List.map (fun t => (t.1 + k, t.2))) := by
  induction ls generalizing j with
  | nil => simp [scanKeyLines, Except.map]
  | cons l ls ih =>
    simp only [scanKeyLines]
    split
    · rw [show j + k + 1 = (j + 1) + k from by omega, ih]
    · split
      · rw [show j + k + 1 = (j + 1) + k from by omega, ih]
        cases hs : scanKeyLines ls (j + 1) with
        | ok rest => simp [Except.map]
        | error e => simp [Except.map]
      · split
        · rw [show j + k + 1 = (j + 1) + k from by omega, ih]
        · simp [Except.map]

/-- Comment lines at the front of the input are skipped by the scan, which
continues at the shifted index. -/
theorem scanKeyLines_comment_skip (cs ls : List Str) (i : Nat)
    (h : ∀ c ∈ cs, c.head? = some '#') :
    scanKeyLines (cs ++ ls) i = scanKeyLines ls (i + cs.length) := by
  induction cs generalizing i with
  | nil => simp
  | cons c cs ih =>
    have hc := h c (List.mem_cons_self c cs)
    show scanKeyLines (c :: (cs ++ ls)) i = _
    rw [show scanKeyLines (c :: (cs ++ ls)) i =
        (if c = [] ∨ c.head? = some '#' then scanKeyLines (cs ++ ls) (i + 1)
         else
          match matchKeyValueLine c with
          | some kv =>
            match scanKeyLines (cs ++ ls) (i + 1) with
            | .ok rest => .ok ((i, kv.key, kv.value) :: rest)
            | .error e => .error e
          | none =>
            if c.head? = some ' ' then scanKeyLines (cs ++ ls) (i + 1)
            else .error .valueError) from rfl]
    rw [if_pos (Or.inr hc)]
    rw [ih (i + 1) (fun x hx => h x (List.mem_cons_of_mem c hx))]
    congr 1
    simp
    omega

/-- Dropping past an appended prefix. -/
theorem drop_append_length {α : Type} (xs ys : List α) (n : Nat) :
    (xs ++ ys).drop (xs.length + n) = ys.drop n :=
  List.drop_append n

/-- Value assembly only looks at the lines after the key line, so shifting
all indices past an appended prefix leaves the assembled value unchanged. -/
theorem buildValue_shift (cs ls : List Str) (i j : Nat) (sv : Str) :
    buildValue (cs ++ ls) (i + cs.length) sv (j + cs.length) = buildValue ls i sv j := by
  unfold buildValue contSlice
  rw [show i + cs.length + 1 = cs.length + (i + 1) from by omega]
  rw [drop_append_length]
  rw [show j + cs.length - (cs.length + (i + 1)) = j - (i + 1) from by omega]

/-- Assembling shifted key lines against the prefixed line list gives the
same pairs as assembling the original key lines against the original. -/
theorem assemblePairs_shift (cs ls : List Str) (kls : List (Nat × Str × Str)) :
    assemblePairs (cs ++ ls) (kls.map (fun t => (t.1 + cs.length, t.2))) =
      assemblePairs ls kls := by
  induction kls with
  | nil => rfl
  | cons e rest ih =>
    obtain ⟨i, k, sv⟩ := e
    cases rest with
    | nil =>
      simp only [List.map_cons, List.map_nil, assemblePairs]
      rw [show (cs ++ ls).length = ls.length + cs.length from by
        simp [List.length_append]; omega]
      rw [buildValue_shift]
    | cons e2 rest2 =>
      obtain ⟨i2, k2, sv2⟩ := e2
      simp only [List.map_cons, assemblePairs]
      rw [buildValue_shift]
      have := ih
      simp only [List.map_cons, assemblePairs] at this
      rw [this]

/-- C5 amended: a comment line is skipped when scanning for key lines, so
comment lines occurring before the first key line are never included in any
value — prepending comment lines leaves the parse outcome unchanged.  (A
comment line between a key line and the next key line, by contrast, is
folded verbatim into the preceding key's value; see the counterexample.) -/
theorem claim_c5_comments_before_keys (cs ls : List Str)
    (h : ∀ c ∈ cs, c.head? = some '#') :
    fromLines (cs ++ ls) = fromLines ls := by
  unfold fromLines rawPairs
  rw [scanKeyLines_comment_skip cs ls 0 h]
  rw [show (0 : Nat) + cs.length = 0 + cs.length from rfl,
    scanKeyLines_shift ls 0 cs.length]
  cases hs : scanKeyLines ls 0 with
  | error e => simp [Except.map]
  | ok kls => simp [Except.map, assemblePairs_shift]

/-- C5 witness: prepending the comment line `# note` to `["Key: a"]` parses
to the same record as without it. -/
theorem claim_c5_witness :
    fromLines ([str "# note"] ++ [str "Key: a"]) = fromLines [str "Key: a"] :=
  claim_c5_comments_before_keys [str "# note"] [str "Key: a"] (by decide)

/-- Repeated `OrderedDict` assignment starting from an arbitrary mapping. -/
def odFold (m : List (Str × α)) (ps : List (Str × α)) : List (Str × α) :=
  ps.foldl (fun acc p => odInsert acc p.1 p.2) m

/-- The value of the last pair with a given key in a pair list, if any. -/
def lastVal (k : Str) : List (Str × α) → Option α
  | [] => none
  | p :: ps =>
    match lastVal k ps with
    | some v => some v
    | none => if p.1 = k then some p.2 else none

/-- One step of first-occurrence key accumulation: a key already seen is
ignored, a new key is appended. -/
def stepKey (acc : List Str) (k : Str) : List Str :=
  if k ∈ acc then acc else acc ++ [k]

/-- The distinct keys of a list in first-occurrence order. -/
def dedupFirst (l : List Str) : List Str := l.foldl stepKey []

/-- Index of the first occurrence of a key in a key list. -/
def posOf (k : Str) : List Str → Nat
  | [] => 0
  | a :: l => if a = k then 0 else posOf k l + 1

/-- Updating every pair keyed `k` leaves lookups of other keys alone. -/
theorem assocLookup_map_update (m : List (Str × α)) (k' k : Str) (v : α)
    (hk : k' ≠ k) :
    assocLookup k (m.map (fun p => if p.1 = k' then (k', v) else p)) =
      assocLookup k m := by
  induction m with
  | nil => rfl
  | cons q m ih =>
    by_cases hq : q.1 = k'
    · simp only [List.map_cons, if_pos hq, assocLookup]
      rw [if_neg hk, if_neg (by rw [hq]; exact hk)]
      exact ih
    · simp only [List.map_cons, if_neg hq, assocLookup]
      by_cases hqk : q.1 = k
      · rw [if_pos hqk, if_pos hqk]
      · rw [if_neg hqk, if_neg hqk]
        exact ih

/-- When some pair has key `k`, updating them all makes the lookup yield
the new value. -/
theorem assocLookup_map_update_self (m : List (Str × α)) (k : Str) (v : α)
    (hmem : m.any (fun p => p.1 = k) = true) :
    assocLookup k (m.map (fun p => if p.1 = k then (k, v) else p)) = some v := by
  induction m with
  | nil => simp at hmem
  | cons q m ih =>
    by_cases hq : q.1 = k
    · simp [List.map_cons, if_pos hq, assocLookup, hq]
    · have hmem2 : m.any (fun p => p.1 = k) = true := by
        rcases List.any_eq_true.mp hmem with ⟨p, hp, hpk⟩
        rcases List.mem_cons.mp hp with h | h
        · rw [← h] at hq; exact absurd (of_decide_eq_true hpk) hq
        · exact List.any_eq_true.mpr ⟨p, h, hpk⟩
      simp only [List.map_cons, if_neg hq, assocLookup, if_neg hq]
      exact ih hmem2

/-- Appending a pair with a fresh key makes the lookup yield its value. -/
theorem assocLookup_append_self (m : List (Str × α)) (k : Str) (v : α)
    (h : ¬ m.any (fun p => p.1 = k) = true) :
    assocLookup k (m ++ [(k, v)]) = some v := by
  induction m with
  | nil =>
    show assocLookup k [(k, v)] = some v
    unfold assocLookup
    rw [if_pos rfl]
  | cons q m ih =>
    have hq : ¬ q.1 = k := fun hqk =>
      h (List.any_eq_true.mpr ⟨q, List.mem_cons_self q m, decide_eq_true hqk⟩)
    have hm : ¬ m.any (fun p => p.1 = k) = true := fun hm2 => by
      rcases List.any_eq_true.mp hm2 with ⟨p, hp, hpk⟩
      exact h (List.any_eq_true.mpr ⟨p, List.mem_cons_of_mem q hp, hpk⟩)
    simp only [List.cons_append, assocLookup, if_neg hq]
    exact ih hm

/-- Appending a pair with a different key leaves a lookup unchanged. -/
theorem assocLookup_append_other (m : List (Str × α)) (k' k : Str) (v : α)
    (hk : k' ≠ k) :
    assocLookup k (m ++ [(k', v)]) = assocLookup k m := by
  induction m with
  | nil =>
    show assocLookup k [(k', v)] = assocLookup k []
    unfold assocLookup
    rw [if_neg hk]
    rfl
  | cons q m ih =>
    by_cases hq : q.1 = k
    · simp only [List.cons_append, assocLookup, if_pos hq]
    · simp only [List.cons_append, assocLookup, if_neg hq]
      exact ih

/-- Lookup after one `OrderedDict` assignment: the assigned key reads the
new value, any other key reads as before. -/
theorem assocLookup_odInsert (m : List (Str × α)) (k' k : Str) (v : α) :
    assocLookup k (odInsert m k' v) =
      if k' = k then some v else assocLookup k m := by
  unfold odInsert
  by_cases hmem : m.any (fun p => p.1 = k') = true
  · rw [if_pos hmem]
    by_cases hk : k' = k
    · subst hk
      rw [if_pos rfl]
      exact assocLookup_map_update_self m k' v hmem
    · rw [if_neg hk]
      exact assocLookup_map_update m k' k v hk
  · rw [if_neg hmem]
    by_cases hk : k' = k
    · subst hk
      rw [if_pos rfl]
      exact assocLookup_append_self m k' v hmem
    · rw [if_neg hk]
      exact assocLookup_append_other m k' k v hk

/-- A key absent from a pair list has no last value. -/
theorem lastVal_eq_none (k : Str) (l : List (Str × α))
    (h : ¬ k ∈ l.map Prod.fst) : lastVal k l = none := by
  induction l with
  | nil => rfl
  | cons p l ih =>
    have hp : ¬ p.1 = k := fun hpk =>
      h (by rw [List.map_cons, ← hpk]; exact List.mem_cons_self _ _)
    have hl : ¬ k ∈ l.map Prod.fst := fun hm =>
      h (by rw [List.map_cons]; exact List.mem_cons_of_mem _ hm)
    unfold lastVal
    rw [ih hl, if_neg hp]

/-- The last value over an appended list prefers the second list. -/
theorem lastVal_append (k : Str) (xs ys : List (Str × α)) :
    lastVal k (xs ++ ys) =
      match lastVal k ys with
      | some v => some v
      | none => lastVal k xs := by
  induction xs with
  | nil =>
    cases h : lastVal k ys <;> simp [lastVal, h]
  | cons x xs ih =>
    have hx : lastVal k (x :: (xs ++ ys)) =
        match lastVal k (xs ++ ys) with
        | some v => some v
        | none => if x.1 = k then some x.2 else none := rfl
    have hx2 : lastVal k (x :: xs) =
        match lastVal k xs with
        | some v => some v
        | none => if x.1 = k then some x.2 else none := rfl
    show lastVal k (x :: (xs ++ ys)) = _
    rw [hx, ih, hx2]
    cases h : lastVal k ys with
    | some v => rfl
    | none => rfl

/-- Lookup in a fold of assignments: the last assignment of the key wins,
and an unassigned key reads from the initial mapping. -/
theorem assocLookup_odFold (ps : List (Str × α)) (m : List (Str × α)) (k : Str) :
    assocLookup k (odFold m ps) =
      match lastVal k ps with
      | some v => some v
      | none => assocLookup k m := by
  induction ps generalizing m with
  | nil => rfl
  | cons p ps ih =>
    show assocLookup k (odFold (odInsert m p.1 p.2) ps) = _
    rw [ih]
    cases hl : lastVal k ps with
    | some v => simp [lastVal, hl]
    | none =>
      simp only [lastVal, hl]
      rw [assocLookup_odInsert]
      by_cases hk : p.1 = k
      · rw [if_pos hk, if_pos hk]
      · rw [if_neg hk, if_neg hk]

/-- One assignment advances the key list by one accumulation step. -/
theorem map_fst_odInsert (m : List (Str × α)) (k : Str) (v : α) :
    (odInsert m k v).map Prod.fst = stepKey (m.map Prod.fst) k := by
  unfold odInsert stepKey
  have hiff : m.any (fun p => p.1 = k) = true ↔ k ∈ m.map Prod.fst := by
    rw [List.any_eq_true]
    simp only [List.mem_map]
    constructor
    · rintro ⟨p, hp, hpk⟩
      exact ⟨p, hp, of_decide_eq_true hpk⟩
    · rintro ⟨p, hp, hpk⟩
      exact ⟨p, hp, decide_eq_true hpk⟩
  by_cases hmem : m.any (fun p => p.1 = k) = true
  · rw [if_pos hmem, if_pos (hiff.mp hmem)]
    rw [List.map_map]
    apply List.map_congr_left
    intro p hp
    show Prod.fst (if p.1 = k then (k, v) else p) = p.1
    by_cases hpk : p.1 = k
    · rw [if_pos hpk, hpk]
    · rw [if_neg hpk]
  · rw [if_neg hmem, if_neg (fun hm => hmem (hiff.mpr hm))]
    simp

/-- The key list of a fold of assignments is the accumulated key fold. -/
theorem map_fst_odFold (ps m : List (Str × α)) :
    (odFold m ps).map Prod.fst =
      (ps.map Prod.fst).foldl stepKey (m.map Prod.fst) := by
  induction ps generalizing m with
  | nil => rfl
  | cons p ps ih =>
    show (odFold (odInsert m p.1 p.2) ps).map Prod.fst = _
    rw [ih, map_fst_odInsert]
    rfl

/-- Membership in the accumulated key fold. -/
theorem mem_foldl_stepKey (l acc : List Str) (x : Str) :
    x ∈ l.foldl stepKey acc ↔ x ∈ acc ∨ x ∈ l := by
  induction l generalizing acc with
  | nil => simp
  | cons a l ih =>
    rw [List.foldl_cons, ih]
    unfold stepKey
    by_cases h : a ∈ acc
    · rw [if_pos h]
      simp only [List.mem_cons]
      constructor
      · tauto
      · rintro (hx | hx | hx) <;> [tauto; (rw [hx]; tauto); tauto]
    · rw [if_neg h]
      simp only [List.mem_append, List.mem_cons, List.mem_singleton]
      tauto

/-- A key already present keeps its position under later appends. -/
theorem posOf_append_of_mem (k : Str) (acc rest : List Str) (h : k ∈ acc) :
    posOf k (acc ++ rest) = posOf k acc := by
  induction acc with
  | nil => cases h
  | cons a l ih =>
    by_cases hak : a = k
    · simp [posOf, hak]
    · have hl : k ∈ l := by
        rcases List.mem_cons.mp h with h1 | h1
        · exact absurd h1.symm hak
        · exact h1
      simp only [List.cons_append, posOf, if_neg hak, List.append_eq]
      rw [ih hl]

/-- A fresh key appended at the end sits at the old length. -/
theorem posOf_concat_self (k : Str) (acc : List Str) (h : ¬ k ∈ acc) :
    posOf k (acc ++ [k]) = acc.length := by
  induction acc with
  | nil => simp [posOf]
  | cons a l ih =>
    have hak : ¬ a = k := fun hk => h (by rw [hk]; exact List.mem_cons_self k l)
    have hl : ¬ k ∈ l := fun hk => h (List.mem_cons_of_mem a hk)
    simp only [List.cons_append, posOf, if_neg hak, List.append_eq, List.length_cons]
    rw [ih hl]

/-- A key already accumulated keeps its position through the whole fold. -/
theorem posOf_foldl_stepKey (l acc : List Str) (k : Str) (h : k ∈ acc) :
    posOf k (l.foldl stepKey acc) = posOf k acc := by
  induction l generalizing acc with
  | nil => rfl
  | cons a l ih =>
    rw [List.foldl_cons]
    have hmem : k ∈ stepKey acc a := by
      unfold stepKey
      by_cases ha : a ∈ acc
      · rw [if_pos ha]; exact h
      · rw [if_neg ha]; exact List.mem_append_left _ h
    rw [ih (stepKey acc a) hmem]
    unfold stepKey
    by_cases ha : a ∈ acc
    · rw [if_pos ha]
    · rw [if_neg ha]
      exact posOf_append_of_mem k acc [a] h

/-- C7: in a well-formed single-record input where a key occurs on exactly
two key lines, the parsed record maps that key to the value assembled from
the later occurrence, while the key's position in iteration order is the
number of distinct keys occurring before its first occurrence. -/
theorem claim_c7_duplicate_key (lines : List Str) (A B C : List (Str × Str))
    (k v₁ v₂ : Str)
    (h : rawPairs lines = .ok (A ++ (k, v₁) :: B ++ (k, v₂) :: C))
    (hA : ¬ k ∈ A.map Prod.fst) (hB : ¬ k ∈ B.map Prod.fst)
    (hC : ¬ k ∈ C.map Prod.fst) :
    ∃ r, fromLines lines = .ok r ∧
      assocLookup k r = some v₂ ∧
      posOf k (r.map Prod.fst) = (dedupFirst (A.map Prod.fst)).length := by
  refine ⟨odOfPairs (A ++ (k, v₁) :: B ++ (k, v₂) :: C), ?_, ?_, ?_⟩
  · unfold fromLines
    rw [h]
  · have h4 : lastVal k ((k, v₂) :: C) = some v₂ := by
      unfold lastVal
      rw [lastVal_eq_none k C hC, if_pos rfl]
    have h1 : lastVal k (A ++ (k, v₁) :: B ++ (k, v₂) :: C) = some v₂ := by
      rw [lastVal_append, h4]
    show assocLookup k (odFold [] (A ++ (k, v₁) :: B ++ (k, v₂) :: C)) = some v₂
    rw [assocLookup_odFold, h1]
  · show posOf k ((odFold [] (A ++ (k, v₁) :: B ++ (k, v₂) :: C)).map Prod.fst) = _
    rw [map_fst_odFold]
    simp only [List.map_append, List.map_cons, List.map_nil]
    rw [List.foldl_append, List.foldl_append, List.foldl_cons, List.foldl_cons]
    set acc1 := (A.map Prod.fst).foldl stepKey [] with hacc1
    have hkacc1 : ¬ k ∈ acc1 := by
      rw [hacc1, mem_foldl_stepKey]
      rintro (h0 | h0)
      · cases h0
      · exact hA h0
    have hstep1 : stepKey acc1 k = acc1 ++ [k] := by
      unfold stepKey
      rw [if_neg hkacc1]
    rw [hstep1]
    set acc2 := (B.map Prod.fst).foldl stepKey (acc1 ++ [k]) with hacc2
    have hkacc2 : k ∈ acc2 := by
      rw [hacc2, mem_foldl_stepKey]
      exact Or.inl (List.mem_append_right _ (List.mem_cons_self k []))
    have hstep2 : stepKey acc2 k = acc2 := by
      unfold stepKey
      rw [if_pos hkacc2]
    rw [hstep2]
    rw [posOf_foldl_stepKey _ _ k hkacc2]
    rw [hacc2, posOf_foldl_stepKey _ _ k
      (List.mem_append_right _ (List.mem_cons_self k []))]
    rw [posOf_concat_self k _ hkacc1]
    rfl

/-- C7 witness: the duplicate-key theorem at the four-line input where `K`
appears twice — the value is the later `y` and the key keeps position 1. -/
theorem claim_c7_witness :
    ∃ r, fromLines [str "A: 1", str "K: x", str "B: 2", str "K: y"] = .ok r ∧
      assocLookup (str "K") r = some (str "y") ∧
      posOf (str "K") (r.map Prod.fst) =
        (dedupFirst ([(str "A", str "1")].map Prod.fst)).length :=
  claim_c7_duplicate_key [str "A: 1", str "K: x", str "B: 2", str "K: y"]
    [(str "A", str "1")] [(str "B", str "2")] [] (str "K") (str "x") (str "y")
    (by decide) (by decide) (by decide) (by decide)

/-- The line splitter never produces an empty list from a non-empty walk. -/
theorem splitLinesAux_ne_nil (s acc : Str) : splitLinesAux acc s ≠ [] := by
  induction s generalizing acc with
  | nil => simp [splitLinesAux]
  | cons c cs ih =>
    unfold splitLinesAux
    by_cases hc : c = '\n'
    · rw [if_pos hc]
      cases cs with
      | nil => simp
      | cons c2 cs2 => simp
    · rw [if_neg hc]
      exact ih _

/-- An input splits into no lines exactly when it is empty. -/
theorem pySplitLines_eq_nil (s : Str) : pySplitLines s = [] ↔ s = [] := by
  cases s with
  | nil => simp [pySplitLines]
  | cons c cs =>
    simp only [pySplitLines]
    exact ⟨fun h => absurd h (splitLinesAux_ne_nil _ _), fun h => List.noConfusion h⟩

/-- The scan of `RTData.from_lines` only ever raises `ValueError`. -/
theorem scanKeyLines_error (ls : List Str) :
    ∀ (i : Nat) (e : PyErr), scanKeyLines ls i = .error e → e = .valueError := by
  induction ls with
  | nil => exact fun i e h => Except.noConfusion h
  | cons l ls ih =>
    intro i e h
    unfold scanKeyLines at h
    split at h
    · exact ih _ _ h
    · split at h
      · split at h
        · exact Except.noConfusion h
        · injection h with h1
          next heq =>
            rw [← h1]
            exact ih _ _ heq
      · split at h
        · exact ih _ _ h
        · injection h with h1
          exact h1.symm

/-- `RTData.from_lines` only ever raises `ValueError`. -/
theorem fromLines_error (ls : List Str) (e : PyErr)
    (h : fromLines ls = .error e) : e = .valueError := by
  unfold fromLines rawPairs at h
  cases hs : scanKeyLines ls 0 with
  | ok kls => rw [hs] at h; exact Except.noConfusion h
  | error e2 =>
    rw [hs] at h
    injection h with h1
    rw [← h1]
    exact scanKeyLines_error ls 0 e2 hs

/-- A single field conversion only ever raises `RTConversionError`. -/
theorem deserializeField_error (n v : Str) (e : PyErr)
    (h : deserializeField n v = .error e) : e = .conversionError := by
  unfold deserializeField at h
  split at h
  · unfold convertToDatetime at h
    split at h
    · exact Except.noConfusion h
    · split at h
      · exact Except.noConfusion h
      · split at h
        · exact Except.noConfusion h
        · injection h with h1
          exact h1.symm
  · split at h
    · exact Except.noConfusion h
    · exact Except.noConfusion h

/-- `RTDataSerializer.deserialize` only ever raises `RTConversionError`. -/
theorem deserialize_error (ps : List (Str × Str)) :
    ∀ e : PyErr, deserialize ps = .error e → e = .conversionError := by
  induction ps with
  | nil => exact fun e h => Except.noConfusion h
  | cons p ps ih =>
    intro e h
    unfold deserialize at h
    split at h
    · split at h
      · exact Except.noConfusion h
      · injection h with h1
        next heq =>
          rw [← h1]
          exact ih _ heq
    · injection h with h1
      next heq =>
        rw [← h1]
        exact deserializeField_error p.1 p.2 _ heq

/-- Parsing multipart parts only ever raises `ValueError`. -/
theorem partsFromLines_error (ps : List (List Str)) :
    ∀ e : PyErr, partsFromLines ps = .error e → e = .valueError := by
  induction ps with
  | nil => exact fun e h => Except.noConfusion h
  | cons p ps ih =>
    intro e h
    unfold partsFromLines at h
    split at h
    · split at h
      · exact Except.noConfusion h
      · injection h with h1
        next heq =>
          rw [← h1]
          exact ih _ heq
    · injection h with h1
      next heq =>
        rw [← h1]
        exact fromLines_error p _ heq

/-- `RTMultipartData.deserialize` only ever raises `RTConversionError`. -/
theorem multiDeserialize_error (rs : List (List (Str × Str))) :
    ∀ e : PyErr, multiDeserialize rs = .error e → e = .conversionError := by
  induction rs with
  | nil => exact fun e h => Except.noConfusion h
  | cons r rs ih =>
    intro e h
    unfold multiDeserialize at h
    split at h
    · split at h
      · exact Except.noConfusion h
      · injection h with h1
        next heq =>
          rw [← h1]
          exact ih _ heq
    · injection h with h1
      next heq =>
        rw [← h1]
        exact deserialize_error r _ heq

/-- The body stage raises only `ValueError` or `RTConversionError`. -/
theorem parseBody_error (mp : Bool) (ls : List Str) (e : PyErr)
    (h : parseBody mp ls = .error e) :
    e = .valueError ∨ e = .conversionError := by
  unfold parseBody at h
  split at h
  · split at h
    · split at h
      · exact Except.noConfusion h
      · injection h with h1
        next heq =>
          rw [← h1]
          exact Or.inr (multiDeserialize_error _ _ heq)
    · injection h with h1
      next heq =>
        rw [← h1]
        exact Or.inl (partsFromLines_error _ _ heq)
  · split at h
    · split at h
      · exact Except.noConfusion h
      · injection h with h1
        next heq =>
          rw [← h1]
          exact Or.inr (deserialize_error _ _ heq)
    · injection h with h1
      next heq =>
        rw [← h1]
        exact Or.inl (fromLines_error _ _ heq)

/-- The detail loop only ever raises `IndexError`. -/
theorem detailLoop_error (ls : List Str) :
    ∀ e : PyErr, detailLoop ls = .error e → e = .indexError := by
  induction ls with
  | nil =>
    intro e h
    injection h with h1
    exact h1.symm
  | cons l ls ih =>
    intro e h
    unfold detailLoop at h
    split at h
    · split at h
      · exact Except.noConfusion h
      · injection h with h1
        next heq =>
          rw [← h1]
          exact ih _ heq
    · exact Except.noConfusion h

/-- C6 counterexample: for the input consisting of a header line with no
line after it at all, the parser raises `IndexError` (from `lines[0]` on
the emptied list), not the malformed-header error the claim requires for
every header not followed by a blank line. -/
theorem claim_c6_header_only_index_error :
    (matchHeader (str "RT/4.0.5 200 Ok")).isSome = true ∧
    pySplitLines (str "RT/4.0.5 200 Ok") = [str "RT/4.0.5 200 Ok"] ∧
    ¬ parseRTResponse (str "RT/4.0.5 200 Ok") false = .error .malformedHeader := by
  decide

/-- The stages after the blank separator never raise the missing-header
error: their failures are `IndexError`, the malformed-header error, a
`ValueError` from the record grammar, or a conversion error. -/
theorem parseDetailsAndBody_ne_missing (rest1 : List Str) (mp : Bool)
    (ver code rsn : Str) (e : PyErr)
    (h : parseDetailsAndBody rest1 mp ver code rsn = .error e) :
    ¬ e = .missingHeader := by
  unfold parseDetailsAndBody at h
  cases hd : detailLoop rest1 with
  | error e2 =>
    rw [hd] at h
    rw [← Except.error.inj h, detailLoop_error _ _ hd]
    decide
  | ok ds =>
    rw [hd] at h
    have h2 : buildResponse rest1 mp ver code rsn ds = Except.error e := h
    have hbody : ∀ e3 : PyErr, parseBody mp rest1 = Except.error e3 →
        ¬ e3 = PyErr.missingHeader := by
      intro e3 hb
      rcases parseBody_error _ _ _ hb with hv | hv <;> rw [hv] <;> decide
    unfold buildResponse at h2
    cases hsc : sepCheckAfterDetails rest1 ds with
    | error e2 =>
      rw [hsc] at h2
      rw [← Except.error.inj h2]
      unfold sepCheckAfterDetails at hsc
      by_cases hds : ds = []
      · rw [if_pos hds] at hsc
        exact Except.noConfusion hsc
      · rw [if_neg hds] at hsc
        cases hg : rest1.get? ds.length with
        | none =>
          rw [hg] at hsc
          rw [← Except.error.inj hsc]
          decide
        | some lsep =>
          rw [hg] at hsc
          have hsc2 : (if ¬ lsep = [] then Except.error PyErr.malformedHeader
              else Except.ok ()) = Except.error e2 := hsc
          by_cases hls : ¬ lsep = []
          · rw [if_pos hls] at hsc2
            rw [← Except.error.inj hsc2]
            decide
          · rw [if_neg hls] at hsc2
            exact Except.noConfusion hsc2
    | ok u =>
      rw [hsc] at h2
      cases hb : parseBody mp rest1 with
      | ok body => rw [hb] at h2; exact Except.noConfusion h2
      | error e3 =>
        rw [hb] at h2
        rw [← Except.error.inj h2]
        exact hbody e3 hb

/-- C6 amended: the envelope parser raises the missing-header error exactly
when the input has no lines at all (the empty input); when the first line
matches the meta-line grammar and the next line exists but is not blank it
raises the malformed-header error; when the first line matches the grammar
and no line follows at all it raises `IndexError` instead. -/
theorem claim_c6_missing_and_malformed (content hdr l : Str) (rest : List Str)
    (mp : Bool) :
    (parseRTResponse content mp = .error .missingHeader ↔ content = []) ∧
    (pySplitLines content = hdr :: l :: rest → (matchHeader hdr).isSome = true →
      ¬ l = [] → parseRTResponse content mp = .error .malformedHeader) ∧
    (pySplitLines content = [hdr] → (matchHeader hdr).isSome = true →
      parseRTResponse content mp = .error .indexError) := by
  refine ⟨⟨?_, ?_⟩, ?_, ?_⟩
  · intro h
    unfold parseRTResponse at h
    cases hsp : pySplitLines content with
    | nil => exact (pySplitLines_eq_nil content).mp hsp
    | cons l0 rest0 =>
      exfalso
      rw [hsp] at h
      simp only [parseFromLines] at h
      cases hmh : matchHeader l0 with
      | none =>
        rw [hmh] at h
        exact PyErr.noConfusion (Except.error.inj h)
      | some m =>
        obtain ⟨ver, code, rsn⟩ := m
        rw [hmh] at h
        have h2 : parseAfterHeader rest0 mp ver code rsn =
            Except.error PyErr.missingHeader := h
        cases rest0 with
        | nil =>
          simp only [parseAfterHeader] at h2
          exact PyErr.noConfusion (Except.error.inj h2)
        | cons l1 rest1 =>
          simp only [parseAfterHeader] at h2
          by_cases hl1 : ¬ l1 = []
          · rw [if_pos hl1] at h2
            exact PyErr.noConfusion (Except.error.inj h2)
          · rw [if_neg hl1] at h2
            exact parseDetailsAndBody_ne_missing rest1 mp ver code rsn _ h2 rfl
  · intro h
    rw [h]
    rfl
  · intro hsplit hhdr hl
    obtain ⟨⟨ver, code, rsn⟩, hm⟩ := Option.isSome_iff_exists.mp hhdr
    unfold parseRTResponse
    rw [hsplit]
    simp only [parseFromLines]
    rw [hm]
    show parseAfterHeader (l :: rest) mp ver code rsn = _
    simp only [parseAfterHeader]
    rw [if_pos hl]
  · intro hsplit hhdr
    obtain ⟨⟨ver, code, rsn⟩, hm⟩ := Option.isSome_iff_exists.mp hhdr
    unfold parseRTResponse
    rw [hsplit]
    simp only [parseFromLines]
    rw [hm]
    show parseAfterHeader [] mp ver code rsn = _
    rfl

/-- C6 witness: the amended header-error theorem at concrete inputs — a
non-blank line after the header gives the malformed-header error, a lone
header line gives `IndexError`, and the empty input gives the
missing-header error. -/
theorem claim_c6_witness :
    parseRTResponse (str "RT/4.0.5 200 Ok\nX") false = .error .malformedHeader ∧
    parseRTResponse (str "RT/4.0.5 200 Ok") false = .error .indexError ∧
    parseRTResponse [] false = .error .missingHeader := by
  refine ⟨?_, ?_, ?_⟩
  · exact (claim_c6_missing_and_malformed (str "RT/4.0.5 200 Ok\nX")
      (str "RT/4.0.5 200 Ok") (str "X") [] false).2.1 (by decide) (by decide)
      (by decide)
  · exact (claim_c6_missing_and_malformed (str "RT/4.0.5 200 Ok")
      (str "RT/4.0.5 200 Ok") [] [] false).2.2 (by decide) (by decide)
  · exact (claim_c6_missing_and_malformed [] [] [] [] false).1.mpr rfl

/-! ### String lemmas for the round-trip proof -/

/-- Dropping while a predicate fails at the head drops nothing. -/
theorem dropWhile_head_false {p : Char → Bool} (s : Str)
    (h : ∀ c, s.head? = some c → p c = false) : s.dropWhile p = s := by
  cases s with
  | nil => rfl
  | cons c t =>
    rw [List.dropWhile_cons, h c rfl]
    simp

/-- The head of a `dropWhile` result fails the predicate. -/
theorem head_dropWhile_false {p : Char → Bool} (s : Str) (c : Char)
    (h : (s.dropWhile p).head? = some c) : p c = false := by
  induction s with
  | nil => exact Option.noConfusion h
  | cons a t ih =>
    rw [List.dropWhile_cons] at h
    by_cases ha : p a = true
    · rw [if_pos ha] at h
      exact ih h
    · rw [if_neg ha] at h
      rw [← Option.some.inj h]
      exact Bool.eq_false_iff.mpr ha

/-- `dropWhile` never lengthens a list. -/
theorem length_dropWhile_le {p : Char → Bool} (s : Str) :
    (s.dropWhile p).length ≤ s.length := by
  induction s with
  | nil => exact Nat.le_refl 0
  | cons a t ih =>
    rw [List.dropWhile_cons]
    by_cases ha : p a = true
    · rw [if_pos ha]
      exact Nat.le_succ_of_le ih
    · rw [if_neg ha]

/-- A string whose ends are not whitespace is fixed by `strip`. -/
theorem pyStrip_eq_self (s : Str)
    (h1 : ∀ c, s.head? = some c → isPySpace c = false)
    (h2 : ∀ c, s.getLast? = some c → isPySpace c = false) :
    pyStrip s = s := by
  unfold pyStrip
  rw [dropWhile_head_false s h1,
    dropWhile_head_false s.reverse (fun c hc => h2 c (by rwa [List.head?_reverse] at hc)),
    List.reverse_reverse]

/-- Conversely, a string fixed by `strip` has no whitespace at its ends. -/
theorem pyStrip_ends (s : Str) (h : pyStrip s = s) :
    (∀ c, s.head? = some c → isPySpace c = false) ∧
    (∀ c, s.getLast? = some c → isPySpace c = false) := by
  have hlen : s.length ≤ (s.dropWhile isPySpace).length := by
    calc s.length = (pyStrip s).length := by rw [h]
    _ = ((s.dropWhile isPySpace).reverse.dropWhile isPySpace).length := by
        unfold pyStrip; rw [List.length_reverse]
    _ ≤ (s.dropWhile isPySpace).reverse.length := length_dropWhile_le _
    _ = (s.dropWhile isPySpace).length := List.length_reverse _
  have hdw : s.dropWhile isPySpace = s :=
    List.IsSuffix.eq_of_length (List.dropWhile_suffix _)
      (Nat.le_antisymm (length_dropWhile_le s) hlen)
  constructor
  · intro c hc
    refine head_dropWhile_false s c ?_
    rw [hdw]
    exact hc
  · intro c hc
    have hrev : s.reverse = (s.dropWhile isPySpace).reverse.dropWhile isPySpace := by
      have := congrArg List.reverse h
      unfold pyStrip at this
      rw [List.reverse_reverse] at this
      exact this.symm
    refine head_dropWhile_false (s.dropWhile isPySpace).reverse c ?_
    rw [← hrev, List.head?_reverse]
    exact hc

/-- A strip-fixed non-empty string does not start with whitespace; helper
form used for the regex value group. -/
theorem dropWhile_space_of_strip (s : Str) (h : pyStrip s = s) :
    s.dropWhile isPySpace = s :=
  dropWhile_head_false s (pyStrip_ends s h).1

/-- `takeWhile` over a satisfying prefix followed by a failing character. -/
theorem takeWhile_append_stop {p : Char → Bool} (k : Str) (d : Char) (t : Str)
    (hall : k.all p = true) (hd : p d = false) :
    (k ++ d :: t).takeWhile p = k := by
  induction k with
  | nil =>
    rw [List.nil_append, List.takeWhile_cons, hd]
    rfl
  | cons a l ih =>
    have ha : p a = true := (List.all_eq_true.mp hall) a (List.mem_cons_self a l)
    have hl : l.all p = true :=
      List.all_eq_true.mpr (fun x hx => List.all_eq_true.mp hall x (List.mem_cons_of_mem a hx))
    rw [List.cons_append, List.takeWhile_cons, ha]
    simp [ih hl]

/-- Companion of `takeWhile_append_stop` for the remainder. -/
theorem drop_length_append (k t : Str) : (k ++ t).drop k.length = t :=
  List.drop_left k t

/-! ### Decimal rendering and parsing lemmas -/

/-- Digit characters are digits. -/
theorem digitChar_isDig (n : Nat) (h : n < 10) : isDig (digitChar n) = true := by
  interval_cases n <;> decide

/-- Reading back a digit character gives the value. -/
theorem charVal_digitChar (n : Nat) (h : n < 10) : charVal (digitChar n) = n := by
  interval_cases n <;> decide

/-- Appending one digit multiplies the accumulated value by ten. -/
theorem digitsToNat_append (a : Str) (c : Char) :
    digitsToNat (a ++ [c]) = 10 * digitsToNat a + charVal c := by
  unfold digitsToNat
  rw [List.foldl_append]
  rfl

/-- Every character of a rendered number is a digit. -/
theorem natToStrAux_all_dig : ∀ f n, (natToStrAux f n).all isDig = true
  | 0, _ => rfl
  | f + 1, n => by
    unfold natToStrAux
    by_cases h : n < 10
    · rw [if_pos h]
      simp [digitChar_isDig n h]
    · rw [if_neg h]
      rw [List.all_append, natToStrAux_all_dig f (n / 10)]
      simp [digitChar_isDig (n % 10) (Nat.mod_lt n (by omega))]

/-- A rendering with fuel is never empty. -/
theorem natToStrAux_ne_nil (f n : Nat) (h : 0 < f) : natToStrAux f n ≠ [] := by
  cases f with
  | zero => omega
  | succ f =>
    unfold natToStrAux
    by_cases hn : n < 10
    · rw [if_pos hn]
      simp
    · rw [if_neg hn]
      simp

/-- Reading back a rendered number gives the number. -/
theorem digitsToNat_natToStrAux : ∀ f n, n < f → digitsToNat (natToStrAux f n) = n
  | 0, n, h => absurd h (Nat.not_lt_zero n)
  | f + 1, n, _ => by
    unfold natToStrAux
    by_cases hn : n < 10
    · rw [if_pos hn]
      show (10 * 0 + charVal (digitChar n)) = n
      rw [charVal_digitChar n hn]
      omega
    · rw [if_neg hn]
      rw [digitsToNat_append]
      have hdiv : n / 10 < n := Nat.div_lt_self (by omega) (by omega)
      rw [digitsToNat_natToStrAux f (n / 10) (by omega)]
      rw [charVal_digitChar (n % 10) (Nat.mod_lt n (by omega))]
      omega

/-- Reading back `natToStr` gives the number. -/
theorem natToStr_correct (n : Nat) : digitsToNat (natToStr n) = n :=
  digitsToNat_natToStrAux (n + 1) n (Nat.lt_succ_self n)

/-- A number below `10 ^ k` renders in at most `k` digits. -/
theorem natToStrAux_length_le : ∀ f n k, n < 10 ^ k → 1 ≤ k →
    (natToStrAux f n).length ≤ k
  | 0, _, k, _, _ => by
    simp [natToStrAux]
  | f + 1, n, k, h, hk => by
    unfold natToStrAux
    by_cases hn : n < 10
    · rw [if_pos hn]
      simpa using hk
    · rw [if_neg hn]
      rw [List.length_append]
      have hk2 : 2 ≤ k := by
        by_contra hc
        have hk1 : k = 1 := by omega
        rw [hk1, pow_one] at h
        omega
      have hdivlt : n / 10 < 10 ^ (k - 1) := by
        rw [Nat.div_lt_iff_lt_mul (by omega)]
        calc n < 10 ^ k := h
          _ = 10 ^ (k - 1) * 10 := by
              rw [← Nat.pow_succ]
              congr 1
              omega
      have hrec := natToStrAux_length_le f (n / 10) (k - 1) hdivlt (by omega)
      simp only [List.length_cons, List.length_nil]
      omega

/-- Specialized length bound for `natToStr`. -/
theorem natToStr_length_le (n k : Nat) (h : n < 10 ^ k) (hk : 1 ≤ k) :
    (natToStr n).length ≤ k :=
  natToStrAux_length_le (n + 1) n k h hk

/-- A zero-pad to width `w` has length exactly `w`. -/
theorem padZ_length (w n : Nat) (h : (natToStr n).length ≤ w) :
    (padZ w n).length = w := by
  unfold padZ
  rw [List.length_append, List.length_replicate]
  omega

/-- A zero-padded rendering is all digits. -/
theorem padZ_all_dig (w n : Nat) : (padZ w n).all isDig = true := by
  unfold padZ
  rw [List.all_append]
  have hrep : (List.replicate (w - (natToStr n).length) '0').all isDig = true :=
    List.all_eq_true.mpr (fun x hx => by
      rw [(List.mem_replicate.mp hx).2]
      decide)
  rw [hrep]
  show (true && (natToStrAux (n + 1) n).all isDig) = true
  rw [natToStrAux_all_dig]
  rfl

/-- Leading zeros do not change the value read back. -/
theorem digitsToNat_replicate_zero :
    ∀ j (d : Str), digitsToNat (List.replicate j '0' ++ d) = digitsToNat d
  | 0, d => by simp
  | j + 1, d => by
    have h0 : (10 * 0 + charVal '0') = 0 := by decide
    show List.foldl (fun a c => 10 * a + charVal c) (10 * 0 + charVal '0')
        (List.replicate j '0' ++ d) = _
    rw [h0]
    exact digitsToNat_replicate_zero j d

/-- Reading back a zero-padded rendering gives the number. -/
theorem digitsToNat_padZ (w n : Nat) : digitsToNat (padZ w n) = n := by
  unfold padZ
  rw [digitsToNat_replicate_zero]
  exact natToStr_correct n

/-- Parsing exactly `w` digits off a zero-padded rendering succeeds. -/
theorem parseNDigits_padZ (w n : Nat) (rest : Str) (h : (natToStr n).length ≤ w) :
    parseNDigits w (padZ w n ++ rest) = some (n, rest) := by
  have htake : (padZ w n ++ rest).take w = padZ w n := List.take_left' (padZ_length w n h)
  have hdrop : (padZ w n ++ rest).drop w = rest := List.drop_left' (padZ_length w n h)
  show (if ((padZ w n ++ rest).take w).length = w ∧
      ((padZ w n ++ rest).take w).all isDig = true then
      some (digitsToNat ((padZ w n ++ rest).take w), (padZ w n ++ rest).drop w)
    else none) = some (n, rest)
  rw [htake, hdrop]
  rw [if_pos ⟨padZ_length w n h, padZ_all_dig w n⟩]
  rw [digitsToNat_padZ]

/-- Matching a literal character at the head succeeds. -/
theorem expectChar_cons_self (c : Char) (r : Str) : expectChar c (c :: r) = some r := by
  show (if c = c then some r else none) = some r
  rw [if_pos rfl]

/-- Months have at most 31 days. -/
theorem daysInMonth_le_31 (y m : Nat) : daysInMonth y m ≤ 31 := by
  unfold daysInMonth
  split
  · split <;> omega
  · split <;> omega

/-- Exact-width variant of `parseNDigits_padZ` with nothing following. -/
theorem parseNDigits_padZ_exact (w n : Nat) (h : (natToStr n).length ≤ w) :
    parseNDigits w (padZ w n) = some (n, []) := by
  have h2 := parseNDigits_padZ w n [] h
  rwa [List.append_nil] at h2

/-- The ISO format of `DATETIME_FORMATS` parses the canonical rendering of
a valid datetime with zero microseconds back to the same datetime. -/
theorem strptimeIso_pyStr (y mo da h mi se : Nat)
    (h1 : 1 ≤ y) (h2 : y ≤ 9999) (h3 : 1 ≤ mo) (h4 : mo ≤ 12) (h5 : 1 ≤ da)
    (h6 : da ≤ daysInMonth y mo) (h7 : h ≤ 23) (h8 : mi ≤ 59) (h9 : se ≤ 59) :
    strptimeIso (pyStrDatetime ⟨y, mo, da, h, mi, se, 0⟩) =
      some ⟨y, mo, da, h, mi, se, 0⟩ := by
  have e4 : (10 : Nat) ^ 4 = 10000 := by norm_num
  have e2 : (10 : Nat) ^ 2 = 100 := by norm_num
  have hy : (natToStr y).length ≤ 4 := natToStr_length_le y 4 (by omega) (by omega)
  have hmo : (natToStr mo).length ≤ 2 := natToStr_length_le mo 2 (by omega) (by omega)
  have hda : (natToStr da).length ≤ 2 :=
    natToStr_length_le da 2 (by have := daysInMonth_le_31 y mo; omega) (by omega)
  have hh : (natToStr h).length ≤ 2 := natToStr_length_le h 2 (by omega) (by omega)
  have hmi : (natToStr mi).length ≤ 2 := natToStr_length_le mi 2 (by omega) (by omega)
  have hse : (natToStr se).length ≤ 2 := natToStr_length_le se 2 (by omega) (by omega)
  have hiso : pyStrDatetime ⟨y, mo, da, h, mi, se, 0⟩ =
      padZ 4 y ++ '-' :: (padZ 2 mo ++ '-' :: (padZ 2 da ++ ' ' :: (padZ 2 h ++
        ':' :: (padZ 2 mi ++ ':' :: padZ 2 se)))) := by
    simp [pyStrDatetime]
  rw [hiso]
  unfold strptimeIso
  rw [parseNDigits_padZ 4 y _ hy]
  simp only [Option.bind_eq_bind, Option.some_bind]
  rw [expectChar_cons_self]
  simp only [Option.bind_eq_bind, Option.some_bind]
  rw [parseNDigits_padZ 2 mo _ hmo]
  simp only [Option.bind_eq_bind, Option.some_bind]
  rw [expectChar_cons_self]
  simp only [Option.bind_eq_bind, Option.some_bind]
  rw [parseNDigits_padZ 2 da _ hda]
  simp only [Option.bind_eq_bind, Option.some_bind]
  rw [expectChar_cons_self]
  simp only [Option.bind_eq_bind, Option.some_bind]
  rw [parseNDigits_padZ 2 h _ hh]
  simp only [Option.bind_eq_bind, Option.some_bind]
  rw [expectChar_cons_self]
  simp only [Option.bind_eq_bind, Option.some_bind]
  rw [parseNDigits_padZ 2 mi _ hmi]
  simp only [Option.bind_eq_bind, Option.some_bind]
  rw [expectChar_cons_self]
  simp only [Option.bind_eq_bind, Option.some_bind]
  rw [parseNDigits_padZ_exact 2 se hse]
  simp only [Option.bind_eq_bind, Option.some_bind]
  rw [if_pos ⟨trivial, h1, h3, h4, h5, h6, h7, h8, h9⟩]

/-- A zero-padded rendering is never empty. -/
theorem padZ_ne_nil (w n : Nat) : padZ w n ≠ [] := by
  unfold padZ
  intro h
  exact natToStrAux_ne_nil (n + 1) n (by omega) (List.append_eq_nil.mp h).2

/-- A zero-padded rendering starts with a digit. -/
theorem padZ_head_dig (w n : Nat) :
    ∃ c, (padZ w n).head? = some c ∧ isDig c = true := by
  simp only [padZ]
  cases hj : w - (natToStr n).length with
  | zero =>
    simp only [List.replicate, List.nil_append]
    cases hn : natToStr n with
    | nil => exact absurd hn (natToStrAux_ne_nil _ _ (by omega))
    | cons c t =>
      refine ⟨c, rfl, ?_⟩
      have hall := natToStrAux_all_dig (n + 1) n
      rw [show natToStrAux (n + 1) n = c :: t from hn] at hall
      exact (List.all_eq_true.mp hall) c (List.mem_cons_self c t)
  | succ j =>
    exact ⟨'0', rfl, by decide⟩

/-- Appending to the left of a non-empty list preserves the last element. -/
theorem getLast?_append_right {α : Type} (l₁ l₂ : List α) (h : l₂ ≠ []) :
    (l₁ ++ l₂).getLast? = l₂.getLast? := by
  rw [List.getLast?_append]
  cases hl : l₂.getLast? with
  | some c => rfl
  | none =>
    exfalso
    cases l₂ with
    | nil => exact h rfl
    | cons a t =>
      rw [List.getLast?_eq_getLast (a :: t) (by simp)] at hl
      exact Option.noConfusion hl

/-- A zero-padded rendering ends with a digit. -/
theorem padZ_last_dig (w n : Nat) :
    ∃ c, (padZ w n).getLast? = some c ∧ isDig c = true := by
  simp only [padZ]
  have hne : natToStr n ≠ [] := natToStrAux_ne_nil _ _ (by omega)
  rw [getLast?_append_right _ _ hne]
  cases hn : natToStr n with
  | nil => exact absurd hn hne
  | cons c t =>
    rw [List.getLast?_eq_getLast (c :: t) (by simp)]
    refine ⟨(c :: t).getLast (by simp), rfl, ?_⟩
    have hall := natToStrAux_all_dig (n + 1) n
    rw [show natToStrAux (n + 1) n = c :: t from hn] at hall
    exact (List.all_eq_true.mp hall) _ (List.getLast_mem _)

/-- Newlines never occur in a zero-padded rendering. -/
theorem not_nl_padZ (w n : Nat) : ¬ '\n' ∈ padZ w n := fun h =>
  absurd (List.all_eq_true.mp (padZ_all_dig w n) _ h) (by decide)

/-- Normal form of `str(datetime)` for zero microseconds. -/
theorem pyStrDatetime_eq (y mo da h mi se : Nat) :
    pyStrDatetime ⟨y, mo, da, h, mi, se, 0⟩ =
      padZ 4 y ++ '-' :: (padZ 2 mo ++ '-' :: (padZ 2 da ++ ' ' :: (padZ 2 h ++
        ':' :: (padZ 2 mi ++ ':' :: padZ 2 se)))) := by
  simp [pyStrDatetime]

/-- `str(datetime)` starts with a digit. -/
theorem pyStrDatetime_head (y mo da h mi se : Nat) :
    ∃ c, (pyStrDatetime ⟨y, mo, da, h, mi, se, 0⟩).head? = some c ∧
      isDig c = true := by
  rw [pyStrDatetime_eq]
  obtain ⟨c, hc, hd⟩ := padZ_head_dig 4 y
  exact ⟨c, by rw [List.head?_append_of_ne_nil _ (padZ_ne_nil 4 y)]; exact hc, hd⟩

/-- `str(datetime)` ends with a digit. -/
theorem pyStrDatetime_last (y mo da h mi se : Nat) :
    ∃ c, (pyStrDatetime ⟨y, mo, da, h, mi, se, 0⟩).getLast? = some c ∧
      isDig c = true := by
  rw [pyStrDatetime_eq]
  obtain ⟨c, hc, hd⟩ := padZ_last_dig 2 se
  refine ⟨c, ?_, hd⟩
  rw [getLast?_append_right _ _ (by simp)]
  rw [show ('-' :: (padZ 2 mo ++ '-' :: (padZ 2 da ++ ' ' :: (padZ 2 h ++
      ':' :: (padZ 2 mi ++ ':' :: padZ 2 se))))) =
    ['-'] ++ (padZ 2 mo ++ '-' :: (padZ 2 da ++ ' ' :: (padZ 2 h ++
      ':' :: (padZ 2 mi ++ ':' :: padZ 2 se)))) from rfl]
  rw [getLast?_append_right _ _ (by simp [padZ_ne_nil])]
  rw [getLast?_append_right _ _ (by simp)]
  rw [show ('-' :: (padZ 2 da ++ ' ' :: (padZ 2 h ++ ':' :: (padZ 2 mi ++
      ':' :: padZ 2 se)))) = ['-'] ++ (padZ 2 da ++ ' ' :: (padZ 2 h ++
      ':' :: (padZ 2 mi ++ ':' :: padZ 2 se))) from rfl]
  rw [getLast?_append_right _ _ (by simp [padZ_ne_nil])]
  rw [getLast?_append_right _ _ (by simp)]
  rw [show (' ' :: (padZ 2 h ++ ':' :: (padZ 2 mi ++ ':' :: padZ 2 se))) =
    [' '] ++ (padZ 2 h ++ ':' :: (padZ 2 mi ++ ':' :: padZ 2 se)) from rfl]
  rw [getLast?_append_right _ _ (by simp [padZ_ne_nil])]
  rw [getLast?_append_right _ _ (by simp)]
  rw [show (':' :: (padZ 2 mi ++ ':' :: padZ 2 se)) =
    [':'] ++ (padZ 2 mi ++ ':' :: padZ 2 se) from rfl]
  rw [getLast?_append_right _ _ (by simp [padZ_ne_nil])]
  rw [getLast?_append_right _ _ (by simp)]
  rw [show (':' :: padZ 2 se) = [':'] ++ padZ 2 se from rfl]
  rw [getLast?_append_right _ _ (padZ_ne_nil 2 se)]
  exact hc

/-- `str(datetime)` contains no newline. -/
theorem pyStrDatetime_no_nl (y mo da h mi se : Nat) :
    ¬ '\n' ∈ pyStrDatetime ⟨y, mo, da, h, mi, se, 0⟩ := by
  rw [pyStrDatetime_eq]
  intro hmem
  simp only [List.mem_append, List.mem_cons] at hmem
  rcases hmem with hx | hx | hx | hx | hx | hx | hx | hx | hx | hx | hx
  · exact not_nl_padZ 4 y hx
  · exact absurd hx (by decide)
  · exact not_nl_padZ 2 mo hx
  · exact absurd hx (by decide)
  · exact not_nl_padZ 2 da hx
  · exact absurd hx (by decide)
  · exact not_nl_padZ 2 h hx
  · exact absurd hx (by decide)
  · exact not_nl_padZ 2 mi hx
  · exact absurd hx (by decide)
  · exact not_nl_padZ 2 se hx

/-- Lower-casing fixes digits. -/
theorem toLower_digit (c : Char) (h : isDig c = true) : Char.toLower c = c := by
  have hc : c ∈ ['0', '1', '2', '3', '4', '5', '6', '7', '8', '9'] :=
    of_decide_eq_true h
  fin_cases hc <;> decide

/-- The first format of `DATETIME_FORMATS` requires a weekday name, so it
rejects any string starting with a digit. -/
theorem strptimeCtime_digit_head (s : Str) (c : Char) (hh : s.head? = some c)
    (hd : isDig c = true) : strptimeCtime s = none := by
  cases s with
  | nil => exact Option.noConfusion hh
  | cons a t =>
    have hac : a = c := Option.some.inj hh
    subst hac
    have hc : a ∈ ['0', '1', '2', '3', '4', '5', '6', '7', '8', '9'] :=
      of_decide_eq_true hd
    have hlow : Char.toLower a = a := toLower_digit a hd
    have hcond : ([str "mon", str "tue", str "wed", str "thu", str "fri",
        str "sat", str "sun"].any
          (fun x => x = lowerStr ((a :: t).take 3))) = false := by
      show ([str "mon", str "tue", str "wed", str "thu", str "fri",
        str "sat", str "sun"].any
          (fun x => x = Char.toLower a :: lowerStr (t.take 2))) = false
      rw [hlow]
      fin_cases hc <;> simp [str]
    simp only [strptimeCtime, hcond]
    rfl

/-! ### The clean-record class of the amended round-trip claim -/

/-- A string value that survives the wire format: fixed by `strip` and
free of newlines. -/
def cleanStr (s : Str) : Prop := pyStrip s = s ∧ ¬ '\n' ∈ s

/-- A list item that survives the comma-separated wire format. -/
def cleanItem (x : Str) : Prop := ¬ x = [] ∧ cleanStr x ∧ ¬ ',' ∈ x

/-- The field names subject to `conversion_map`. -/
def isConvName (n : Str) : Prop :=
  n = str "Created" ∨ n = str "LastUpdated" ∨ n = str "Requestors"

/-- A key accepted by the key group of `KEY_VALUE_LINE`: a bare `[\w -]+`
name with an optional trailing `?`, or the wrapped custom-field form. -/
def validKey (k : Str) : Prop :=
  (¬ k = [] ∧ k.all wcls = true) ∨
  (k.getLast? = some '?' ∧ ¬ k.dropLast = [] ∧ k.dropLast.all wcls = true) ∨
  (k.take 4 = str "CF.\x7b" ∧ k.getLast? = some '}' ∧
    ¬ (k.drop 4).dropLast = [] ∧
    ((k.drop 4).dropLast.all wcls = true ∨
     ((k.drop 4).dropLast.getLast? = some '?' ∧
      ¬ (k.drop 4).dropLast.dropLast = [] ∧
      (k.drop 4).dropLast.dropLast.all wcls = true)))

/-- A value of the declared target type for its field, restricted to data
the wire format can carry: conversion-table fields hold datetimes (valid,
zero microseconds) or a clean list, every other field a clean string. -/
def cleanValue (n : Str) : PyValue → Prop
  | .str s => ¬ isConvName n ∧ cleanStr s
  | .dt d => (n = str "Created" ∨ n = str "LastUpdated") ∧ d.valid ∧
      d.microsecond = 0
  | .list xs => n = str "Requestors" ∧ ∀ x ∈ xs, cleanItem x
  | .pynone => False

/-- The record class of the amended round-trip claim: grammar-valid
pairwise-distinct keys and clean values of the declared types. -/
def cleanRecord (R : List (Str × PyValue)) : Prop :=
  (R.map Prod.fst).Nodup ∧ ∀ p ∈ R, validKey p.1 ∧ cleanValue p.1 p.2

instance : DecidablePred cleanStr := fun s => by
  unfold cleanStr
  infer_instance

instance : DecidablePred cleanItem := fun x => by
  unfold cleanItem
  infer_instance

instance : DecidablePred isConvName := fun n => by
  unfold isConvName
  infer_instance

instance : DecidablePred validKey := fun k => by
  unfold validKey
  infer_instance

instance (n : Str) (v : PyValue) : Decidable (cleanValue n v) := by
  cases v <;> (unfold cleanValue; infer_instance)

instance (R : List (Str × PyValue)) : Decidable (cleanRecord R) := by
  unfold cleanRecord
  infer_instance

/-! ### Rendering lemmas for clean values -/

/-- Splitting a newline-free string into lines yields the string itself. -/
theorem splitLinesAux_no_nl (s : Str) :
    ∀ acc, ¬ '\n' ∈ s → splitLinesAux acc s = [acc.reverse ++ s] := by
  induction s with
  | nil =>
    intro acc _
    simp [splitLinesAux]
  | cons c t ih =>
    intro acc h
    have hc : ¬ c = '\n' := fun hcc => h (by rw [hcc]; exact List.mem_cons_self _ _)
    unfold splitLinesAux
    rw [if_neg hc]
    rw [ih (c :: acc) (fun hm => h (List.mem_cons_of_mem c hm))]
    simp

/-- `splitlines` of a newline-free string. -/
theorem pySplitLines_no_nl (s : Str) (h : ¬ '\n' ∈ s) :
    pySplitLines s = if s = [] then [] else [s] := by
  cases s with
  | nil => rfl
  | cons c t =>
    rw [if_neg (by simp)]
    show splitLinesAux [] (c :: t) = [c :: t]
    rw [splitLinesAux_no_nl (c :: t) [] h]
    rfl

/-- The scalar rendering of a clean string is the string itself (the strip
is the identity, and the `Text` re-folding of a newline-free string is the
identity as well). -/
theorem serializeScalar_clean (n s : Str) (h : cleanStr s) :
    serializeScalar n s = s := by
  unfold serializeScalar
  rw [h.1]
  by_cases hn : n = str "Text"
  · rw [if_pos hn]
    rw [pySplitLines_no_nl s h.2]
    by_cases hs : s = []
    · rw [if_pos hs, hs]
      rfl
    · rw [if_neg hs]
      rfl
  · rw [if_neg hn]

/-- A digit is not whitespace. -/
theorem dig_not_space (c : Char) (h : isDig c = true) : isPySpace c = false := by
  have hc : c ∈ ['0', '1', '2', '3', '4', '5', '6', '7', '8', '9'] :=
    of_decide_eq_true h
  fin_cases hc <;> decide

/-- `str(datetime)` of a zero-microsecond datetime is a clean string. -/
theorem pyStrDatetime_clean (y mo da h mi se : Nat) :
    cleanStr (pyStrDatetime ⟨y, mo, da, h, mi, se, 0⟩) := by
  constructor
  · apply pyStrip_eq_self
    · intro c hc
      obtain ⟨c2, hc2, hd2⟩ := pyStrDatetime_head y mo da h mi se
      rw [hc] at hc2
      rw [Option.some.inj hc2]
      exact dig_not_space c2 hd2
    · intro c hc
      obtain ⟨c2, hc2, hd2⟩ := pyStrDatetime_last y mo da h mi se
      rw [hc] at hc2
      rw [Option.some.inj hc2]
      exact dig_not_space c2 hd2
  · exact pyStrDatetime_no_nl y mo da h mi se

/-- A comma-join of non-empty lists starting with a non-empty list is
non-empty. -/
theorem pyJoin_ne_nil (sep x : Str) (xs : List Str) (hx : ¬ x = []) :
    ¬ pyJoin sep (x :: xs) = [] := by
  cases xs with
  | nil => exact hx
  | cons y ys =>
    show ¬ x ++ sep ++ pyJoin sep (y :: ys) = []
    intro h
    exact hx (List.append_eq_nil.mp (List.append_eq_nil.mp h).1).1

/-- The head of a join is the head of its first item. -/
theorem head?_pyJoin (sep x : Str) (xs : List Str) (hx : ¬ x = []) :
    (pyJoin sep (x :: xs)).head? = x.head? := by
  cases xs with
  | nil => rfl
  | cons y ys =>
    show ((x ++ sep) ++ pyJoin sep (y :: ys)).head? = x.head?
    rw [List.head?_append_of_ne_nil _ (by simp [hx])]
    exact List.head?_append_of_ne_nil _ hx

/-- The last element of a join is the last element of some item. -/
theorem getLast?_pyJoin (sep : Str) :
    ∀ xs : List Str, (∀ x ∈ xs, ¬ x = []) → ¬ xs = [] →
      ∃ x ∈ xs, (pyJoin sep xs).getLast? = x.getLast? := by
  intro xs
  induction xs with
  | nil => intro _ hne; exact absurd rfl hne
  | cons x xs ih =>
    intro hall _
    cases xs with
    | nil => exact ⟨x, List.mem_cons_self x [], rfl⟩
    | cons y ys =>
      have hy : ¬ y = [] := hall y (by simp)
      obtain ⟨z, hz, hzeq⟩ := ih (fun u hu => hall u (List.mem_cons_of_mem x hu))
        (by simp)
      refine ⟨z, List.mem_cons_of_mem x hz, ?_⟩
      show ((x ++ sep) ++ pyJoin sep (y :: ys)).getLast? = z.getLast?
      rw [getLast?_append_right _ _ (pyJoin_ne_nil sep y ys hy)]
      exact hzeq

/-- Every character of a join comes from the separator or an item. -/
theorem mem_pyJoin (sep : Str) (c : Char) :
    ∀ xs : List Str, c ∈ pyJoin sep xs → c ∈ sep ∨ ∃ x ∈ xs, c ∈ x := by
  intro xs
  induction xs with
  | nil => intro h; cases h
  | cons x xs ih =>
    intro h
    cases xs with
    | nil => exact Or.inr ⟨x, List.mem_cons_self x [], h⟩
    | cons y ys =>
      rw [show pyJoin sep (x :: y :: ys) = x ++ sep ++ pyJoin sep (y :: ys)
        from rfl] at h
      rcases List.mem_append.mp h with h2 | h2
      · rcases List.mem_append.mp h2 with h3 | h3
        · exact Or.inr ⟨x, List.mem_cons_self x _, h3⟩
        · exact Or.inl h3
      · rcases ih h2 with h3 | ⟨z, hz, hcz⟩
        · exact Or.inl h3
        · exact Or.inr ⟨z, List.mem_cons_of_mem x hz, hcz⟩

/-- The comma-space join of clean items is clean. -/
theorem pyJoin_comma_clean (xs : List Str) (h : ∀ x ∈ xs, cleanItem x) :
    cleanStr (pyStrip (pyJoin (str ", ") xs)) ∧
    pyStrip (pyJoin (str ", ") xs) = pyJoin (str ", ") xs := by
  have hjoin : pyStrip (pyJoin (str ", ") xs) = pyJoin (str ", ") xs := by
    cases xs with
    | nil => rfl
    | cons x xs2 =>
      have hx := h x (List.mem_cons_self x xs2)
      apply pyStrip_eq_self
      · intro c hc
        rw [head?_pyJoin _ x xs2 hx.1] at hc
        exact ((pyStrip_ends x hx.2.1.1).1) c hc
      · intro c hc
        obtain ⟨z, hz, hzeq⟩ := getLast?_pyJoin (str ", ") (x :: xs2)
          (fun u hu => (h u hu).1) (by simp)
        rw [hzeq] at hc
        exact ((pyStrip_ends z (h z hz).2.1.1).2) c hc
  have hnl : ¬ '\n' ∈ pyJoin (str ", ") xs := by
    intro hm
    rcases mem_pyJoin (str ", ") '\n' xs hm with h2 | ⟨z, hz, hcz⟩
    · exact absurd h2 (by decide)
    · exact (h z hz).2.1.2 hcz
  refine ⟨⟨?_, ?_⟩, hjoin⟩
  · rw [hjoin]
    exact hjoin
  · rw [hjoin]
    exact hnl

/-- The rendered value of a clean value is clean. -/
theorem serializeValue_clean (n : Str) (v : PyValue) (h : cleanValue n v) :
    cleanStr (serializeValue n v) := by
  cases v with
  | str s =>
    show cleanStr (serializeScalar n s)
    rw [serializeScalar_clean n s h.2]
    exact h.2
  | dt d =>
    obtain ⟨y, mo, da, hh, mi, se, mic⟩ := d
    have hm : mic = 0 := h.2.2
    subst hm
    show cleanStr (serializeScalar n (pyStrDatetime ⟨y, mo, da, hh, mi, se, 0⟩))
    rw [serializeScalar_clean n _ (pyStrDatetime_clean y mo da hh mi se)]
    exact pyStrDatetime_clean y mo da hh mi se
  | list xs =>
    show cleanStr (pyStrip (pyJoin (str ", ") xs))
    exact (pyJoin_comma_clean xs h.2).1
  | pynone => exact absurd h (by simp [cleanValue])

/-- `split` always yields at least one piece. -/
theorem splitOnChar_ne_nil (sep : Char) (s : Str) : ¬ splitOnChar sep s = [] := by
  cases s with
  | nil => simp [splitOnChar]
  | cons c cs =>
    unfold splitOnChar
    by_cases hc : c = sep
    · rw [if_pos hc]
      simp
    · rw [if_neg hc]
      cases h : splitOnChar sep cs with
      | nil => simp
      | cons p ps => simp

/-- `split` of a separator-free string is one piece. -/
theorem splitOnChar_no_sep (sep : Char) (s : Str) (h : ¬ sep ∈ s) :
    splitOnChar sep s = [s] := by
  induction s with
  | nil => rfl
  | cons c cs ih =>
    have hc : ¬ c = sep := fun hcc => h (by rw [hcc]; exact List.mem_cons_self _ _)
    unfold splitOnChar
    rw [if_neg hc]
    rw [ih (fun hm => h (List.mem_cons_of_mem c hm))]

/-- `split` peels a separator-free prefix before the first separator. -/
theorem splitOnChar_append (sep : Char) (x t : Str) (hx : ¬ sep ∈ x) :
    splitOnChar sep (x ++ sep :: t) = x :: splitOnChar sep t := by
  induction x with
  | nil =>
    show splitOnChar sep (sep :: t) = [] :: splitOnChar sep t
    simp [splitOnChar]
  | cons c cs ih =>
    have hc : ¬ c = sep := fun hcc => hx (by rw [hcc]; exact List.mem_cons_self _ _)
    show splitOnChar sep (c :: (cs ++ sep :: t)) = (c :: cs) :: splitOnChar sep t
    simp only [splitOnChar]
    rw [if_neg hc]
    rw [ih (fun hm => hx (List.mem_cons_of_mem c hm))]

/-- Prepending a non-separator character extends the first piece. -/
theorem splitOnChar_cons_ne (sep c : Char) (cs : Str) (p : Str) (ps : List Str)
    (hc : ¬ c = sep) (h : splitOnChar sep cs = p :: ps) :
    splitOnChar sep (c :: cs) = (c :: p) :: ps := by
  unfold splitOnChar
  rw [if_neg hc, h]

/-- A whitespace head is dropped by `strip`. -/
theorem pyStrip_cons_space (c : Char) (s : Str) (h : isPySpace c = true) :
    pyStrip (c :: s) = pyStrip s := by
  unfold pyStrip
  rw [List.dropWhile_cons, h]
  simp

/-- Splitting the comma-space join of comma-free items recovers the items,
the tail items carrying the space left over after each comma. -/
theorem splitOnChar_pyJoin :
    ∀ (xs : List Str) (x : Str), (∀ z ∈ x :: xs, ¬ ',' ∈ z) →
      splitOnChar ',' (pyJoin (str ", ") (x :: xs)) =
        x :: xs.map (fun z => ' ' :: z) := by
  intro xs
  induction xs with
  | nil =>
    intro x h
    exact splitOnChar_no_sep ',' x (h x (List.mem_cons_self x []))
  | cons y ys ih =>
    intro x h
    have hx : ¬ ',' ∈ x := h x (List.mem_cons_self x _)
    have hjoin : pyJoin (str ", ") (x :: y :: ys) =
        x ++ ',' :: ' ' :: pyJoin (str ", ") (y :: ys) := by
      show x ++ str ", " ++ pyJoin (str ", ") (y :: ys) = _
      rw [List.append_assoc]
      rfl
    rw [hjoin]
    rw [splitOnChar_append ',' x _ hx]
    have hrec := ih y (fun z hz => h z (List.mem_cons_of_mem x hz))
    rw [splitOnChar_cons_ne ',' ' ' _ _ _ (by decide) hrec]
    rfl

/-- `convert_to_list` inverts the comma-space join of clean items. -/
theorem convertToList_pyJoin (xs : List Str) (h : ∀ x ∈ xs, cleanItem x) :
    convertToList (pyJoin (str ", ") xs) = xs := by
  cases xs with
  | nil => rfl
  | cons x xs2 =>
    have hx := h x (List.mem_cons_self x xs2)
    unfold convertToList
    rw [if_neg (pyJoin_ne_nil (str ", ") x xs2 hx.1)]
    rw [splitOnChar_pyJoin xs2 x (fun z hz => (h z hz).2.2)]
    rw [List.map_cons, List.map_map]
    rw [hx.2.1.1]
    have hmap : xs2.map (pyStrip ∘ fun z => ' ' :: z) = xs2 := by
      have h2 : ∀ z ∈ xs2, (pyStrip ∘ fun u => ' ' :: u) z = id z := by
        intro z hz
        show pyStrip (' ' :: z) = z
        rw [pyStrip_cons_space ' ' z (by decide)]
        exact (h z (List.mem_cons_of_mem x hz)).2.1.1
      rw [List.map_congr_left h2, List.map_id]
    rw [hmap]
    apply List.filter_eq_self.mpr
    intro u hu
    rcases List.mem_cons.mp hu with h2 | h2
    · rw [h2]
      exact decide_eq_true hx.1
    · exact decide_eq_true (h u (List.mem_cons_of_mem x h2)).1

/-- Deserializing the rendered value of a clean value recovers the value:
per-field inverse of serialization. -/
theorem deserializeField_clean (n : Str) (v : PyValue) (h : cleanValue n v) :
    deserializeField n (serializeValue n v) = .ok v := by
  cases v with
  | str s =>
    obtain ⟨hc, hs⟩ := h
    show deserializeField n (serializeScalar n s) = _
    rw [serializeScalar_clean n s hs]
    unfold deserializeField
    rw [if_neg (fun h0 => h0.elim (fun a => hc (Or.inl a))
      (fun b => hc (Or.inr (Or.inl b))))]
    rw [if_neg (fun hr => hc (Or.inr (Or.inr hr)))]
  | dt d =>
    obtain ⟨hn, hv, hm⟩ := h
    obtain ⟨y, mo, da, hh, mi, se, mic⟩ := d
    have hm0 : mic = 0 := hm
    subst hm0
    show deserializeField n (serializeScalar n
      (pyStrDatetime ⟨y, mo, da, hh, mi, se, 0⟩)) = _
    rw [serializeScalar_clean n _ (pyStrDatetime_clean y mo da hh mi se)]
    unfold deserializeField
    rw [if_pos hn]
    unfold convertToDatetime
    obtain ⟨c, hc, hd⟩ := pyStrDatetime_head y mo da hh mi se
    rw [if_neg (fun h0 => by rw [h0] at hc; exact Option.noConfusion hc)]
    rw [strptimeCtime_digit_head _ c hc hd]
    unfold PyDateTime.valid at hv
    obtain ⟨h1, h2, h3, h4, h5, h6, h7, h8, h9, -⟩ := hv
    rw [strptimeIso_pyStr y mo da hh mi se h1 h2 h3 h4 h5 h6 h7 h8 h9]
  | list xs =>
    obtain ⟨hn, hx⟩ := h
    subst hn
    show deserializeField (str "Requestors")
      (pyStrip (pyJoin (str ", ") xs)) = _
    rw [(pyJoin_comma_clean xs hx).2]
    unfold deserializeField
    rw [if_neg (by decide)]
    rw [if_pos rfl]
    rw [convertToList_pyJoin xs hx]
  | pynone => exact absurd h (by simp [cleanValue])

/-! ### The serialized wire text, line by line -/

/-- The serialized line of one field, as `RTDataSerializer.serialize` writes
it. -/
def lineOf (p : Str × PyValue) : Str :=
  p.1 ++ str ": " ++ serializeValue p.1 p.2

/-- The raw string pair a field becomes on the wire. -/
def serPair (p : Str × PyValue) : Str × Str :=
  (p.1, serializeValue p.1 p.2)

/-- Key lines enumerated from a starting index, one per line. -/
def enumPairsFrom : Nat → List (Str × Str) → List (Nat × Str × Str)
  | _, [] => []
  | i, p :: ps => (i, p.1, p.2) :: enumPairsFrom (i + 1) ps

/-- `splitlines` looks at the raw string, never the empty one. -/
theorem pySplitLines_of_ne (s : Str) (h : ¬ s = []) :
    pySplitLines s = splitLinesAux [] s := by
  cases s with
  | nil => exact absurd rfl h
  | cons c cs => rfl

/-- A join of at least two pieces on a non-empty separator is non-empty. -/
theorem pyJoin_two_ne (sep : Str) (hsep : ¬ sep = []) (x y : Str)
    (rest : List Str) : ¬ pyJoin sep (x :: y :: rest) = [] := by
  intro h0
  have h1 : (x ++ sep) ++ pyJoin sep (y :: rest) = [] := h0
  rcases List.append_eq_nil.mp h1 with ⟨h2, _⟩
  rcases List.append_eq_nil.mp h2 with ⟨_, h3⟩
  exact hsep h3

/-- A final newline closes the last line without opening an empty one. -/
theorem splitLinesAux_final_nl (l : Str) : ∀ acc, ¬ '\n' ∈ l →
    splitLinesAux acc (l ++ ['\n']) = [acc.reverse ++ l] := by
  induction l with
  | nil =>
    intro acc _
    show splitLinesAux acc ('\n' :: []) = [acc.reverse ++ []]
    rw [List.append_nil]
    rfl
  | cons a l ih =>
    intro acc h
    have ha : ¬ a = '\n' := fun h0 => h (by rw [h0]; exact List.mem_cons_self _ _)
    show splitLinesAux acc (a :: (l ++ ['\n'])) = [acc.reverse ++ a :: l]
    simp only [splitLinesAux]
    rw [if_neg ha]
    rw [ih (a :: acc) (fun hm => h (List.mem_cons_of_mem a hm))]
    simp

/-- A newline with more text after it closes the current line. -/
theorem splitLinesAux_mid_nl (l : Str) : ∀ acc rest, ¬ '\n' ∈ l → ¬ rest = [] →
    splitLinesAux acc (l ++ '\n' :: rest) =
      (acc.reverse ++ l) :: splitLinesAux [] rest := by
  induction l with
  | nil =>
    intro acc rest _ hrest
    show splitLinesAux acc ('\n' :: rest) = (acc.reverse ++ []) :: splitLinesAux [] rest
    rw [List.append_nil]
    cases rest with
    | nil => exact absurd rfl hrest
    | cons r rs => rfl
  | cons a l ih =>
    intro acc rest h hrest
    have ha : ¬ a = '\n' := fun h0 => h (by rw [h0]; exact List.mem_cons_self _ _)
    show splitLinesAux acc (a :: (l ++ '\n' :: rest)) =
      (acc.reverse ++ a :: l) :: splitLinesAux [] rest
    simp only [splitLinesAux]
    rw [if_neg ha]
    rw [ih (a :: acc) rest (fun hm => h (List.mem_cons_of_mem a hm)) hrest]
    simp

/-- Splitting undoes joining newline-free lines followed by a trailing blank:
exactly the relation between `RTDataSerializer.serialize`'s join and
`content_to_lines`'s `splitlines`. -/
theorem pySplitLines_join : ∀ (ls : List Str), (∀ l ∈ ls, ¬ '\n' ∈ l) →
    pySplitLines (pyJoin ['\n'] (ls ++ [[]])) = ls := by
  intro ls
  induction ls with
  | nil => intro _; rfl
  | cons l ls ih =>
    intro h
    have hl := h l (List.mem_cons_self l ls)
    have hrest : ∀ x ∈ ls, ¬ '\n' ∈ x := fun x hx => h x (List.mem_cons_of_mem l hx)
    cases ls with
    | nil =>
      have hJ : pyJoin ['\n'] ([l] ++ [[]]) = (l ++ ['\n']) ++ [] := rfl
      rw [hJ, List.append_nil]
      rw [pySplitLines_of_ne _ (by simp)]
      rw [splitLinesAux_final_nl l [] hl]
      simp
    | cons l2 ls2 =>
      have hstep : pyJoin ['\n'] ((l :: l2 :: ls2) ++ [[]]) =
          l ++ '\n' :: pyJoin ['\n'] ((l2 :: ls2) ++ [[]]) := by
        show (l ++ ['\n']) ++ pyJoin ['\n'] ((l2 :: ls2) ++ [[]]) = _
        rw [List.append_assoc]
        rfl
      rw [hstep]
      have hJne : ¬ pyJoin ['\n'] ((l2 :: ls2) ++ [[]]) = [] := by
        cases ls2 with
        | nil => exact pyJoin_two_ne ['\n'] (by simp) l2 [] []
        | cons l3 ls3 => exact pyJoin_two_ne ['\n'] (by simp) l2 l3 (ls3 ++ [[]])
      rw [pySplitLines_of_ne _ (by simp)]
      rw [splitLinesAux_mid_nl l [] _ hl hJne]
      rw [← pySplitLines_of_ne _ hJne]
      rw [ih hrest]
      simp

/-! ### Matching a serialized key line against `KEY_VALUE_LINE` -/

/-- Structural form of a grammar-valid key: a bare class run, a class run
with a trailing `?`, or the wrapped custom-field forms. -/
theorem validKey_decomp (k : Str) (hk : validKey k) :
    (¬ k = [] ∧ k.all wcls = true) ∨
    (∃ m, k = m ++ ['?'] ∧ ¬ m = [] ∧ m.all wcls = true) ∨
    (∃ b, ¬ b = [] ∧ b.all wcls = true ∧
      (k = str "CF.\x7b" ++ b ++ ['}'] ∨ k = str "CF.\x7b" ++ b ++ ['?', '}'])) := by
  rcases hk with h | ⟨hlast, hne, hall⟩ | ⟨htake, hlast, hne, hinner⟩
  · exact Or.inl h
  · refine Or.inr (Or.inl ⟨k.dropLast, ?_, hne, hall⟩)
    have hkne : k ≠ [] := by
      intro h0
      rw [h0] at hlast
      exact Option.noConfusion hlast
    have h2 := List.dropLast_append_getLast hkne
    rw [List.getLast?_eq_getLast k hkne, Option.some.injEq] at hlast
    rw [hlast] at h2
    exact h2.symm
  · have h4 : k = str "CF.\x7b" ++ k.drop 4 := by
      conv_lhs => rw [← List.take_append_drop 4 k]
      rw [htake]
    have hd4ne : k.drop 4 ≠ [] := fun h0 => hne (by rw [h0]; rfl)
    rw [h4, getLast?_append_right (str "CF.\x7b") (k.drop 4) hd4ne] at hlast
    have hdec : k.drop 4 = (k.drop 4).dropLast ++ ['}'] := by
      have h2 := List.dropLast_append_getLast hd4ne
      rw [List.getLast?_eq_getLast _ hd4ne, Option.some.injEq] at hlast
      rw [hlast] at h2
      exact h2.symm
    rcases hinner with hw | ⟨hql, hqne, hqall⟩
    · refine Or.inr (Or.inr ⟨(k.drop 4).dropLast, hne, hw, Or.inl ?_⟩)
      conv_lhs => rw [h4, hdec]
      rw [List.append_assoc]
    · have hqdec : (k.drop 4).dropLast = (k.drop 4).dropLast.dropLast ++ ['?'] := by
        have h2 := List.dropLast_append_getLast hne
        rw [List.getLast?_eq_getLast _ hne, Option.some.injEq] at hql
        rw [hql] at h2
        exact h2.symm
      refine Or.inr (Or.inr ⟨(k.drop 4).dropLast.dropLast, hqne, hqall, Or.inr ?_⟩)
      conv_lhs => rw [h4, hdec, hqdec]
      rw [List.append_assoc, List.append_assoc]
      rfl

/-- A grammar-valid key starts with a character other than `'#'`. -/
theorem validKey_cons (k : Str) (hk : validKey k) :
    ∃ c t, k = c :: t ∧ ¬ c = '#' := by
  rcases validKey_decomp k hk with ⟨hne, hall⟩ | ⟨m, hkm, hne, hall⟩ |
    ⟨b, hbne, hball, hcf | hcf⟩
  · cases k with
    | nil => exact absurd rfl hne
    | cons c t =>
      refine ⟨c, t, rfl, ?_⟩
      have hc : wcls c = true := List.all_eq_true.mp hall c (List.mem_cons_self c t)
      intro h0
      rw [h0] at hc
      exact absurd hc (by decide)
  · cases m with
    | nil => exact absurd rfl hne
    | cons c t =>
      refine ⟨c, t ++ ['?'], by rw [hkm]; rfl, ?_⟩
      have hc : wcls c = true := List.all_eq_true.mp hall c (List.mem_cons_self c t)
      intro h0
      rw [h0] at hc
      exact absurd hc (by decide)
  · exact ⟨'C', str "F.\x7b" ++ b ++ ['}'], by rw [hcf]; rfl, by decide⟩
  · exact ⟨'C', str "F.\x7b" ++ b ++ ['?', '}'], by rw [hcf]; rfl, by decide⟩

/-- A grammar-valid key has no newline. -/
theorem validKey_no_nl (k : Str) (hk : validKey k) : ¬ '\n' ∈ k := by
  rcases validKey_decomp k hk with ⟨hne, hall⟩ | ⟨m, hkm, hne, hall⟩ |
    ⟨b, hbne, hball, hcf | hcf⟩
  · intro hm
    exact absurd (List.all_eq_true.mp hall _ hm) (by decide)
  · rw [hkm]
    intro hm
    rcases List.mem_append.mp hm with hm | hm
    · exact absurd (List.all_eq_true.mp hall _ hm) (by decide)
    · exact absurd hm (by decide)
  · rw [hcf]
    intro hm
    rcases List.mem_append.mp hm with hm | hm
    · rcases List.mem_append.mp hm with hm | hm
      · exact absurd hm (by decide)
      · exact absurd (List.all_eq_true.mp hball _ hm) (by decide)
    · exact absurd hm (by decide)
  · rw [hcf]
    intro hm
    rcases List.mem_append.mp hm with hm | hm
    · rcases List.mem_append.mp hm with hm | hm
      · exact absurd hm (by decide)
      · exact absurd (List.all_eq_true.mp hball _ hm) (by decide)
    · exact absurd hm (by decide)

/-- A class run followed by a non-`'F'`, non-`'.'` character can not open
the literal `CF.` prefix of the custom-field alternative. -/
theorem take4_not_cf (m : Str) (hm : ¬ m = []) (hw : m.all wcls = true) (d : Char)
    (hdF : ¬ d = 'F') (hdD : ¬ d = '.') (rest : Str) :
    ¬ ((m ++ d :: rest).take 4 = str "CF.\x7b") := by
  cases m with
  | nil => exact absurd rfl hm
  | cons a t =>
    cases t with
    | nil =>
      intro h
      have h2 : a :: d :: rest.take 2 = str "CF.\x7b" := h
      injection h2 with h3 h4
      injection h4 with h5 h6
      exact hdF h5
    | cons b t2 =>
      cases t2 with
      | nil =>
        intro h
        have h2 : a :: b :: d :: rest.take 1 = str "CF.\x7b" := h
        injection h2 with h3 h4
        injection h4 with h5 h6
        injection h6 with h7 h8
        exact hdD h7
      | cons c t3 =>
        intro h
        have h2 : a :: b :: c :: (t3 ++ d :: rest).take 1 = str "CF.\x7b" := h
        injection h2 with h3 h4
        injection h4 with h5 h6
        injection h6 with h7 h8
        have hc : wcls c = true := List.all_eq_true.mp hw c (by simp)
        rw [h7] at hc
        exact absurd hc (by decide)

/-- The custom-field alternative fails without its literal prefix. -/
theorem matchCFKey_none (l : Str) (h : ¬ l.take 4 = str "CF.\x7b") :
    matchCFKey l = none := by
  unfold matchCFKey
  rw [if_neg h]

/-- The bare-name alternative on a rendered `key: rest` line. -/
theorem matchBareKey_render (k t : Str) (hk : ¬ k = []) (hw : k.all wcls = true) :
    matchBareKey (k ++ ':' :: t) = some (k, t) := by
  have hp : (k ++ ':' :: t).takeWhile wcls = k :=
    takeWhile_append_stop k ':' t hw (by decide)
  have hd : (k ++ ':' :: t).drop k.length = ':' :: t := drop_length_append k (':' :: t)
  unfold matchBareKey
  simp only [hp]
  rw [hd, if_neg hk]
  rfl

/-- The bare-name alternative with the optional trailing `?`. -/
theorem matchBareKey_render_q (k t : Str) (hk : ¬ k = []) (hw : k.all wcls = true) :
    matchBareKey (k ++ '?' :: ':' :: t) = some (k ++ ['?'], t) := by
  have hp : (k ++ '?' :: ':' :: t).takeWhile wcls = k :=
    takeWhile_append_stop k '?' (':' :: t) hw (by decide)
  have hd : (k ++ '?' :: ':' :: t).drop k.length = '?' :: ':' :: t :=
    drop_length_append k ('?' :: ':' :: t)
  unfold matchBareKey
  simp only [hp]
  rw [hd, if_neg hk]
  rfl

/-- The custom-field alternative on a rendered wrapped key line. -/
theorem matchCFKey_render (b t : Str) (hb : ¬ b = []) (hw : b.all wcls = true) :
    matchCFKey (str "CF.\x7b" ++ b ++ '}' :: ':' :: t) =
      some (str "CF.\x7b" ++ b ++ ['}'], t) := by
  have h4 : ((str "CF.\x7b" ++ b) ++ '}' :: ':' :: t).take 4 = str "CF.\x7b" := by
    rw [List.append_assoc]
    exact List.take_left (str "CF.\x7b") (b ++ '}' :: ':' :: t)
  have hd4 : ((str "CF.\x7b" ++ b) ++ '}' :: ':' :: t).drop 4 = b ++ '}' :: ':' :: t := by
    rw [List.append_assoc]
    exact List.drop_left (str "CF.\x7b") (b ++ '}' :: ':' :: t)
  unfold matchCFKey
  rw [if_pos h4]
  simp only [hd4]
  rw [takeWhile_append_stop b '}' (':' :: t) hw (by decide)]
  rw [drop_length_append b ('}' :: ':' :: t), if_neg hb]
  rfl

/-- The custom-field alternative with the optional `?` before the brace. -/
theorem matchCFKey_render_q (b t : Str) (hb : ¬ b = []) (hw : b.all wcls = true) :
    matchCFKey (str "CF.\x7b" ++ b ++ '?' :: '}' :: ':' :: t) =
      some (str "CF.\x7b" ++ b ++ ['?', '}'], t) := by
  have h4 : ((str "CF.\x7b" ++ b) ++ '?' :: '}' :: ':' :: t).take 4 = str "CF.\x7b" := by
    rw [List.append_assoc]
    exact List.take_left (str "CF.\x7b") (b ++ '?' :: '}' :: ':' :: t)
  have hd4 : ((str "CF.\x7b" ++ b) ++ '?' :: '}' :: ':' :: t).drop 4 =
      b ++ '?' :: '}' :: ':' :: t := by
    rw [List.append_assoc]
    exact List.drop_left (str "CF.\x7b") (b ++ '?' :: '}' :: ':' :: t)
  unfold matchCFKey
  rw [if_pos h4]
  simp only [hd4]
  rw [takeWhile_append_stop b '?' ('}' :: ':' :: t) hw (by decide)]
  rw [drop_length_append b ('?' :: '}' :: ':' :: t), if_neg hb]
  rfl

/-- `KEY_VALUE_LINE` on a rendered `key: value` line with a space-stable
value recovers exactly the key and the value. -/
theorem matchKeyValueLine_render (k w : Str) (hk : validKey k)
    (hw : w.dropWhile isPySpace = w) :
    matchKeyValueLine (k ++ ':' :: ' ' :: w) = some ⟨k, w⟩ := by
  have hsp : (' ' :: w).dropWhile isPySpace = w := by
    rw [List.dropWhile_cons, if_pos (by decide)]
    exact hw
  rcases validKey_decomp k hk with ⟨hne, hall⟩ | ⟨m, hkm, hne, hall⟩ |
    ⟨b, hbne, hball, hcf | hcf⟩
  · unfold matchKeyValueLine
    rw [matchCFKey_none _ (take4_not_cf k hne hall ':' (by decide) (by decide) (' ' :: w))]
    rw [matchBareKey_render k (' ' :: w) hne hall]
    show some (⟨k, (' ' :: w).dropWhile isPySpace⟩ : KVMatch) = some ⟨k, w⟩
    rw [hsp]
  · subst hkm
    have hre : (m ++ ['?']) ++ ':' :: ' ' :: w = m ++ '?' :: ':' :: ' ' :: w := by
      rw [List.append_assoc]
      rfl
    rw [hre]
    unfold matchKeyValueLine
    rw [matchCFKey_none _ (take4_not_cf m hne hall '?' (by decide) (by decide) (':' :: ' ' :: w))]
    rw [matchBareKey_render_q m (' ' :: w) hne hall]
    show some (⟨m ++ ['?'], (' ' :: w).dropWhile isPySpace⟩ : KVMatch) = some ⟨m ++ ['?'], w⟩
    rw [hsp]
  · subst hcf
    have hre : ((str "CF.\x7b" ++ b) ++ ['}']) ++ ':' :: ' ' :: w =
        (str "CF.\x7b" ++ b) ++ '}' :: ':' :: ' ' :: w := by
      rw [List.append_assoc]
      rfl
    rw [hre]
    unfold matchKeyValueLine
    rw [matchCFKey_render b (' ' :: w) hbne hball]
    show some (⟨str "CF.\x7b" ++ b ++ ['}'], (' ' :: w).dropWhile isPySpace⟩ : KVMatch) =
      some ⟨str "CF.\x7b" ++ b ++ ['}'], w⟩
    rw [hsp]
  · subst hcf
    have hre : ((str "CF.\x7b" ++ b) ++ ['?', '}']) ++ ':' :: ' ' :: w =
        (str "CF.\x7b" ++ b) ++ '?' :: '}' :: ':' :: ' ' :: w := by
      rw [List.append_assoc]
      rfl
    rw [hre]
    unfold matchKeyValueLine
    rw [matchCFKey_render_q b (' ' :: w) hbne hball]
    show some (⟨str "CF.\x7b" ++ b ++ ['?', '}'], (' ' :: w).dropWhile isPySpace⟩ : KVMatch) =
      some ⟨str "CF.\x7b" ++ b ++ ['?', '}'], w⟩
    rw [hsp]

/-! ### From a clean record through the scanner and back -/

/-- A rendered field line has no newline. -/
theorem lineOf_no_nl (p : Str × PyValue) (h : validKey p.1 ∧ cleanValue p.1 p.2) :
    ¬ '\n' ∈ lineOf p := by
  intro hm
  have hm2 : '\n' ∈ p.1 ++ str ": " ++ serializeValue p.1 p.2 := hm
  rcases List.mem_append.mp hm2 with hm3 | hm3
  · rcases List.mem_append.mp hm3 with hm4 | hm4
    · exact validKey_no_nl p.1 h.1 hm4
    · exact absurd hm4 (by decide)
  · exact (serializeValue_clean p.1 p.2 h.2).2 hm3

/-- The scanner over rendered field lines finds exactly one key line per
field, at consecutive indices, with the rendered values. -/
theorem scanKeyLines_render : ∀ (P : List (Str × PyValue)),
    (∀ p ∈ P, validKey p.1 ∧ cleanValue p.1 p.2) → ∀ i,
    scanKeyLines (P.map lineOf) i = .ok (enumPairsFrom i (P.map serPair)) := by
  intro P
  induction P with
  | nil =>
    intro _ i
    rfl
  | cons p ps ih =>
    intro hP i
    have hp := hP p (List.mem_cons_self p ps)
    have hps : ∀ q ∈ ps, validKey q.1 ∧ cleanValue q.1 q.2 :=
      fun q hq => hP q (List.mem_cons_of_mem p hq)
    obtain ⟨c, t0, hct, hch⟩ := validKey_cons p.1 hp.1
    have hcond : ¬ (lineOf p = [] ∨ (lineOf p).head? = some '#') := by
      have hline : lineOf p = c :: (t0 ++ ':' :: ' ' :: serializeValue (c :: t0) p.2) := by
        show p.1 ++ str ": " ++ serializeValue p.1 p.2 = _
        rw [hct]
        simp only [List.cons_append, List.append_assoc]
        rfl
      rw [hline]
      intro h0
      rcases h0 with h0 | h0
      · exact List.noConfusion h0
      · rw [List.head?_cons] at h0
        exact hch (Option.some.inj h0)
    simp only [List.map_cons]
    simp only [scanKeyLines]
    rw [if_neg hcond]
    have hmatch : matchKeyValueLine (lineOf p) = some ⟨p.1, serializeValue p.1 p.2⟩ := by
      have hclean := serializeValue_clean p.1 p.2 hp.2
      have hline2 : lineOf p = p.1 ++ ':' :: ' ' :: serializeValue p.1 p.2 := by
        show p.1 ++ str ": " ++ serializeValue p.1 p.2 = _
        rw [List.append_assoc]
        rfl
      rw [hline2]
      exact matchKeyValueLine_render p.1 (serializeValue p.1 p.2) hp.1
        (dropWhile_space_of_strip _ hclean.1)
    rw [hmatch]
    rw [ih hps (i + 1)]
    rfl

/-- With no continuation slice, assembling a key line keeps its strip-stable
inline value. -/
theorem buildValue_nil_cont (lines : List Str) (i j : Nat) (w : Str)
    (hw : pyStrip w = w) (hc : contSlice lines i j = []) :
    buildValue lines i w j = w := by
  simp only [buildValue]
  rw [hc]
  rw [if_pos rfl]
  by_cases hsv : w = []
  · rw [if_pos hsv, hsv]
    rfl
  · rw [if_neg hsv]
    rw [List.append_nil]
    show pyStrip w = w
    exact hw

/-- Assembling consecutive key lines that run to the end of the input
returns exactly the scanned pairs. -/
theorem assemblePairs_consec (lines : List Str) : ∀ (ps : List (Str × Str)) (i : Nat),
    i + ps.length = lines.length → (∀ p ∈ ps, pyStrip p.2 = p.2) →
    assemblePairs lines (enumPairsFrom i ps) = ps := by
  intro ps
  induction ps with
  | nil =>
    intro i _ _
    rfl
  | cons p ps ih =>
    intro i hlen hstrip
    cases ps with
    | nil =>
      have hlen2 : i + 1 = lines.length := by simpa using hlen
      have hc : contSlice lines i lines.length = [] := by
        unfold contSlice
        rw [← hlen2, Nat.sub_self, List.take_zero]
      show [(p.1, buildValue lines i p.2 lines.length)] = [p]
      rw [buildValue_nil_cont lines i lines.length p.2
        (hstrip p (List.mem_cons_self p [])) hc]
    | cons q qs =>
      have hc : contSlice lines i (i + 1) = [] := by
        unfold contSlice
        rw [Nat.sub_self, List.take_zero]
      have hlen2 : (i + 1) + (q :: qs).length = lines.length := by
        simp only [List.length_cons] at hlen ⊢
        omega
      have hrest := ih (i + 1) hlen2
        (fun r hr => hstrip r (List.mem_cons_of_mem p hr))
      show (p.1, buildValue lines i p.2 (i + 1)) ::
        assemblePairs lines (enumPairsFrom (i + 1) (q :: qs)) = p :: q :: qs
      rw [buildValue_nil_cont lines i (i + 1) p.2
        (hstrip p (List.mem_cons_self p (q :: qs))) hc]
      rw [hrest]

/-- Repeated `OrderedDict` assignment of keys disjoint from the accumulator
and pairwise distinct is plain concatenation. -/
theorem odFold_disjoint {α : Type} : ∀ (ps : List (Str × α)) (m : List (Str × α)),
    (∀ p ∈ ps, ¬ p.1 ∈ m.map Prod.fst) → (ps.map Prod.fst).Nodup →
    odFold m ps = m ++ ps := by
  intro ps
  induction ps with
  | nil =>
    intro m _ _
    rw [List.append_nil]
    rfl
  | cons p ps ih =>
    intro m hdisj hnd
    have hnotm : ¬ (m.any (fun q => q.1 = p.1)) = true := by
      intro h0
      rcases List.any_eq_true.mp h0 with ⟨q, hq, hq2⟩
      exact hdisj p (List.mem_cons_self p ps)
        (List.mem_map.mpr ⟨q, hq, of_decide_eq_true hq2⟩)
    have hstep : odInsert m p.1 p.2 = m ++ [p] := by
      unfold odInsert
      rw [if_neg hnotm]
    have hsplit : p.1 ∉ ps.map Prod.fst ∧ (ps.map Prod.fst).Nodup := by
      rw [List.map_cons] at hnd
      exact List.nodup_cons.mp hnd
    have hdisj2 : ∀ q ∈ ps, ¬ q.1 ∈ (m ++ [p]).map Prod.fst := by
      intro q hq hmem
      rw [List.map_append] at hmem
      rcases List.mem_append.mp hmem with hmem | hmem
      · exact hdisj q (List.mem_cons_of_mem p hq) hmem
      · have hqp : q.1 = p.1 := by simpa using hmem
        refine hsplit.1 ?_
        rw [← hqp]
        exact List.mem_map.mpr ⟨q, hq, rfl⟩
    show odFold (odInsert m p.1 p.2) ps = m ++ p :: ps
    rw [hstep]
    rw [ih (m ++ [p]) hdisj2 hsplit.2]
    rw [List.append_assoc]
    rfl

/-- An `OrderedDict` built from pairs with pairwise distinct keys is those
pairs in order. -/
theorem odOfPairs_nodup {α : Type} (ps : List (Str × α))
    (h : (ps.map Prod.fst).Nodup) : odOfPairs ps = ps := by
  show odFold [] ps = ps
  rw [odFold_disjoint ps [] (by intro p _ hm; simp at hm) h]
  rfl

/-- Deserializing the rendered raw pairs of clean fields restores the typed
record. -/
theorem deserialize_render : ∀ (R : List (Str × PyValue)),
    (∀ p ∈ R, cleanValue p.1 p.2) → deserialize (R.map serPair) = .ok R := by
  intro R
  induction R with
  | nil =>
    intro _
    rfl
  | cons p ps ih =>
    intro h
    simp only [List.map_cons]
    simp only [deserialize]
    have h1 : deserializeField (serPair p).1 (serPair p).2 = .ok p.2 :=
      deserializeField_clean p.1 p.2 (h p (List.mem_cons_self p ps))
    rw [h1, ih (fun q hq => h q (List.mem_cons_of_mem p hq))]
    rfl

/-- `RTData.from_lines` over the rendered lines of a clean record recovers
exactly the rendered raw pairs. -/
theorem fromLines_render (R : List (Str × PyValue)) (h : cleanRecord R) :
    fromLines (R.map lineOf) = .ok (R.map serPair) := by
  have hrp : rawPairs (R.map lineOf) =
      .ok (assemblePairs (R.map lineOf) (enumPairsFrom 0 (R.map serPair))) := by
    unfold rawPairs
    rw [scanKeyLines_render R h.2 0]
  have hass : assemblePairs (R.map lineOf) (enumPairsFrom 0 (R.map serPair)) =
      R.map serPair := by
    apply assemblePairs_consec
    · simp
    · intro q hq
      rcases List.mem_map.mp hq with ⟨p, hp, hqe⟩
      rw [← hqe]
      exact (serializeValue_clean p.1 p.2 (h.2 p hp).2).1
  have hnd : ((R.map serPair).map Prod.fst).Nodup := by
    have hmm : (R.map serPair).map Prod.fst = R.map Prod.fst := by
      rw [List.map_map]
      rfl
    rw [hmm]
    exact h.1
  unfold fromLines
  rw [hrp, hass]
  show Except.ok (odOfPairs (R.map serPair)) = Except.ok (R.map serPair)
  rw [odOfPairs_nodup (R.map serPair) hnd]

/-- C1 (amended): serializing an `RTData` record and parsing the text back
is the identity on clean records — pairwise-distinct keys accepted by the
`KEY_VALUE_LINE` key group, and values of the declared type for their field
that the wire format transports verbatim (strip-stable newline-free strings;
for `Requestors` a list of non-empty comma-free strip-stable items; for
`Created`/`LastUpdated` a valid datetime with zero microseconds).  The
unamended universal claim is refuted by `claim_c1_not_universal`. -/
theorem claim_c1_clean_roundtrip (R : List (Str × PyValue)) (h : cleanRecord R) :
    roundTrip R = .ok R := by
  have hsplit : pySplitLines (serialize R) = R.map lineOf := by
    show pySplitLines (pyJoin ['\n'] (R.map lineOf ++ [[]])) = R.map lineOf
    apply pySplitLines_join
    intro l hl
    rcases List.mem_map.mp hl with ⟨p, hp, hpe⟩
    rw [← hpe]
    exact lineOf_no_nl p (h.2 p hp)
  unfold roundTrip fromString
  rw [hsplit, fromLines_render R h]
  show deserialize (R.map serPair) = Except.ok R
  exact deserialize_render R (fun p hp => (h.2 p hp).2)

/-- The amended round trip at a concrete clean record with a plain field, a
custom field, a datetime field and a list field. -/
theorem claim_c1_witness :
    cleanRecord [(str "id", .str (str "ticket/1")),
      (str "CF.\x7bSeverity\x7d", .str (str "high")),
      (str "Created", .dt ⟨2020, 5, 17, 13, 45, 9, 0⟩),
      (str "Requestors", .list [str "a@x.com", str "b@y.org"])] ∧
    roundTrip [(str "id", .str (str "ticket/1")),
      (str "CF.\x7bSeverity\x7d", .str (str "high")),
      (str "Created", .dt ⟨2020, 5, 17, 13, 45, 9, 0⟩),
      (str "Requestors", .list [str "a@x.com", str "b@y.org"])] =
      .ok [(str "id", .str (str "ticket/1")),
       (str "CF.\x7bSeverity\x7d", .str (str "high")),
       (str "Created", .dt ⟨2020, 5, 17, 13, 45, 9, 0⟩),
       (str "Requestors", .list [str "a@x.com", str "b@y.org"])] :=
  ⟨by decide, claim_c1_clean_roundtrip _ (by decide)⟩

end RT
